import Mathlib

/-!
Shallow embedding of the simplified (NTT-free) ML-KEM implementation
(`common_math.py`, `kyber_math.py`, `kyber_sym.py`, `kyber.py`).

Bytes are modelled as `List Nat` (each entry a value in `[0, 256)` where the
Python `bytes` type guarantees it), bits as `List Nat` with entries in
`{0, 1}`, and modular integers as `Int` representatives together with an
explicit modulus argument, matching the `r % q` reduction performed by the
`ModInt` constructor (Python `%` on a positive modulus agrees with `Int.emod`).
Operations that can raise a Python exception (`ValueError` in constructors,
`OverflowError` in `int.to_bytes`, `TypeError` at call sites) are modelled in
the `Option` monad, `none` standing for the raised exception.
-/

set_option maxHeartbeats 1000000

set_option maxRecDepth 100000

abbrev Bytes := List Nat

abbrev ZPoly := List Int

/-- Little-endian bits of `x`, `d` low bits, least significant first.
Embeds the inner loop of `bits_from_ints` in `kyber_math.py`
(`bits.append(x % 2); x //= 2`, repeated `d` times). -/
def bitsOfInt : Nat → Nat → List Nat
  | 0, _ => []
  | d + 1, x => x % 2 :: bitsOfInt d (x / 2)

/-- Function `bits_from_ints(d, ints)` from `kyber_math.py`: each integer
emits its `d` low bits, least-significant first. -/
def bits_from_ints (d : Nat) (ints : List Nat) : List Nat :=
  ints.flatMap (bitsOfInt d)

/-- Accumulator-passing loop of `ints_from_bits(d, bits)` from
`kyber_math.py`: `x += b * 2 ** (i % d)`, and when `i % d == d - 1` the
accumulated value is appended and `x` reset to `0`. -/
def intsFromBitsAux (d : Nat) : List Nat → Nat → Nat → List Nat
  | [], _, _ => []
  | b :: bs, x, i =>
    if i % d = d - 1 then (x + b * 2 ^ (i % d)) :: intsFromBitsAux d bs 0 (i + 1)
    else intsFromBitsAux d bs (x + b * 2 ^ (i % d)) (i + 1)

/-- Function `ints_from_bits(d, bits)` from `kyber_math.py`. -/
def ints_from_bits (d : Nat) (bits : List Nat) : List Nat :=
  intsFromBitsAux d bits 0 0

/-- Value of a little-endian bit (or digit) sequence: the sum of
`c[t] * 2^t`.  This is the specification-side reading of one `d`-bit group. -/
def valLE : List Nat → Nat
  | [] => 0
  | b :: bs => b + 2 * valLE bs

/-- Python `x.to_bytes(1)`: succeeds exactly on values below 256
(`OverflowError` otherwise; the inputs here are always nonnegative). -/
def byteOf (x : Nat) : Option Nat :=
  if x < 256 then some x else none

/-- Function `bytes_from_bits` (Algorithm 3 BitsToBytes) from
`kyber_math.py`: `b"".join(x.to_bytes(1) for x in ints_from_bits(8, b))`. -/
def bytes_from_bits (b : List Nat) : Option Bytes :=
  (ints_from_bits 8 b).mapM byteOf

/-- Function `bits_from_bytes` (Algorithm 4 BytesToBits) from
`kyber_math.py`. -/
def bits_from_bytes (B : Bytes) : List Nat :=
  bits_from_ints 8 B

/-- Function `bytes_from_ints` (Algorithm 5 ByteEncode_d) from
`kyber_math.py`. -/
def bytes_from_ints (d : Nat) (F : List Nat) : Option Bytes :=
  bytes_from_bits (bits_from_ints d F)

/-- Function `ints_from_bytes` (Algorithm 6 ByteDecode_d) from
`kyber_math.py`. -/
def ints_from_bytes (d : Nat) (B : Bytes) : List Nat :=
  ints_from_bits d (bits_from_bytes B)

/-! ### The algebraic layer (`common_math.py`) -/

/-- Constructor reduction of `ModInt.__init__`: `self.r = r % q` (Python `%`
with a positive modulus agrees with `Int.emod`). -/
def modRed (q r : Int) : Int := r % q

/-- Method `ModInt.__add__`. -/
def modAdd (q a b : Int) : Int := (a + b) % q

/-- Method `ModInt.__sub__`. -/
def modSub (q a b : Int) : Int := (a - b) % q

/-- Method `ModInt.__mul__`. -/
def modMul (q a b : Int) : Int := (a * b) % q

/-- Method `ModInt.size` (slide 33): `min(self.r, self.q - self.r)`. -/
def MIsize (q r : Int) : Int := min r (q - r)

/-- Constructor `ModPol.__init__` keeps a coefficient list of length exactly
`n`; it raises `ValueError` when `len(c) != n` or `n == 0` (the `isinstance`
check is a typing matter and has no counterpart here). -/
def mkPol (n : Nat) (c : ZPoly) : Option ZPoly :=
  if c.length = n ∧ n ≠ 0 then some c else none

/-- Method `ModPol.__add__`: coefficient-wise `ModInt` addition followed by
the constructor. -/
def polAdd (q : Int) (n : Nat) (a b : ZPoly) : Option ZPoly :=
  mkPol n (List.zipWith (modAdd q) a b)

/-- Method `ModPol.__sub__`. -/
def polSub (q : Int) (n : Nat) (a b : ZPoly) : Option ZPoly :=
  mkPol n (List.zipWith (modSub q) a b)

/-- One partial product of `ModPol.__mul__`: add `p = a_i * b_j mod q` to
coefficient `i + j`, or subtract it from coefficient `i + j - n` when
`i + j >= n` (reduction modulo `X^n + 1` via `X^n = -1`).  The indices are
within range whenever `i, j < n`, which holds at every reachable call. -/
def mulStep (q : Int) (n i j : Nat) (p : Int) (c : ZPoly) : ZPoly :=
  if n ≤ i + j then c.set (i + j - n) (modSub q (c.getD (i + j - n) 0) p)
  else c.set (i + j) (modAdd q (c.getD (i + j) 0) p)

/-- The double loop of `ModPol.__mul__` over `enumerate(self.c)` and
`enumerate(other.c)`, starting from the all-zero coefficient list. -/
def mulRaw (q : Int) (n : Nat) (a b : ZPoly) : ZPoly :=
  (List.range a.length).foldl (fun c i =>
    (List.range b.length).foldl
      (fun c2 j => mulStep q n i j (modMul q (a.getD i 0) (b.getD j 0)) c2) c)
    (List.replicate n 0)

/-- Method `ModPol.__mul__` (negacyclic convolution), including the final
constructor call. -/
def polMul (q : Int) (n : Nat) (a b : ZPoly) : Option ZPoly :=
  mkPol n (mulRaw q n a b)

/-- Constructor `Vec.__init__`: raises `ValueError` on an empty list. -/
def mkVec (v : List ZPoly) : Option (List ZPoly) :=
  if v.length ≠ 0 then some v else none

/-- Method `Vec.__add__`. -/
def vecAdd (q : Int) (n : Nat) (a b : List ZPoly) : Option (List ZPoly) := do
  let v ← (List.zipWith (polAdd q n) a b).mapM id
  mkVec v

/-- Method `Vec.__mul__` (inner product): the zero for the `sum` fold is
`self.v[0] - self.v[0]` (an `IndexError` on an empty vector, mod- `none`). -/
def vecDot (q : Int) (n : Nat) (a b : List ZPoly) : Option ZPoly := do
  let a0 ← a.head?
  let zero ← polSub q n a0 a0
  (List.zip a b).foldlM (fun acc xy => do
    let p ← polMul q n xy.1 xy.2
    polAdd q n acc p) zero

/-- Method `Mat.__matmul__`: each row maps to its inner product with the
argument, then the `Vec` constructor runs. -/
def matVecMul (q : Int) (n : Nat) (m : List (List ZPoly)) (vec : List ZPoly) :
    Option (List ZPoly) := do
  let v ← m.mapM (fun line => vecDot q n line vec)
  mkVec v

/-- Method `Mat.transpose`.  The `getD` defaults stand for the in-range
indexing that holds for the square nonempty matrices built by the program. -/
def matTranspose (m : List (List ZPoly)) : Option (List (List ZPoly)) := do
  let t := (List.range (m.getD 0 []).length).map
    (fun i => (List.range m.length).map (fun j => (m.getD j []).getD i []))
  let lines ← t.mapM mkVec
  if lines.length ≠ 0 then some lines else none

/-! ### Kyber extensions (`kyber_math.py`), with `Q = 3329`, `N = 256`
written as literals -/

/-- Python `int.bit_length()`, as a fuel-bounded structural recursion
(the fuel `x` itself always suffices, since the bit length of `x` is at
most `x`). -/
def bitLenAux : Nat → Nat → Nat
  | 0, _ => 0
  | fuel + 1, n => if n = 0 then 0 else bitLenAux fuel (n / 2) + 1

/-- Python `int.bit_length()`. -/
def bitLength (x : Nat) : Nat := bitLenAux x x

/-- Mantissa and exponent of the binary64 value nearest to the fraction
`a / b` (`b > 0`): round to nearest, ties to even, 53-bit significand;
the pair `(m, E)` stands for `m * 2 ^ E`.  Only the normal range is
modelled - no overflow or subnormal handling - which covers every value
these definitions are evaluated at in this file.  The scaled fraction
`sn / sd` is the exact significand estimate `(a / b) * 2 ^ (-E)`, which
lies in `(2 ^ 52, 2 ^ 54)`; it is renormalized into `[2 ^ 52, 2 ^ 53)`
and rounded, comparing the remainder against half the denominator. -/
def rndPosFrac (a b : Nat) : Nat × Int :=
  let E : Int := (bitLength a : Int) - (bitLength b : Int) - 53
  let sn : Nat := if 0 ≤ E then a else a * 2 ^ (-E).toNat
  let sd : Nat := if 0 ≤ E then b * 2 ^ E.toNat else b
  let E2 : Int := if 2 ^ 53 * sd ≤ sn then E + 1 else E
  let sd2 : Nat := if 2 ^ 53 * sd ≤ sn then 2 * sd else sd
  let n : Nat := sn / sd2
  let m : Nat :=
    if 2 * (sn % sd2) < sd2 then n
    else if sd2 < 2 * (sn % sd2) then n + 1
    else if n % 2 = 0 then n else n + 1
  (m, E2)

/-- The exact fraction `1/2 + m * 2 ^ E`, as a numerator-denominator
pair with a power-of-two denominator. -/
def halfPlus (m : Nat) (E : Int) : Nat × Nat :=
  if 0 ≤ E then (2 * m * 2 ^ E.toNat + 1, 2)
  else (m + 2 ^ ((-E).toNat - 1), 2 ^ (-E).toNat)

/-- Truncation toward zero of the nonnegative binary64 value `m * 2 ^ E`,
as Python `int()` converts a float to an integer. -/
def truncPosPair (m : Nat) (E : Int) : Nat :=
  if 0 ≤ E then m * 2 ^ E.toNat else m / 2 ^ (-E).toNat

/-- Python `int(0.5 + a / b)` for an integer `a` and a positive integer
`b`, in binary64 arithmetic: the true division `a / b` returns the
correctly rounded (nearest, ties to even) double of the exact quotient,
the addition `0.5 + x` the correctly rounded double of the exact sum
(`0.5` and the rounding of a sign-flipped value being exact, both
branches round the magnitude with `rndPosFrac` and reapply the sign),
and `int()` truncates toward zero. -/
def floatHalfAdd (a : Int) (b : Nat) : Int :=
  if 0 ≤ a then
    let mE := rndPosFrac a.toNat b
    let nd := halfPlus mE.1 mE.2
    let mE2 := rndPosFrac nd.1 nd.2
    (truncPosPair mE2.1 mE2.2 : Int)
  else
    let mE := rndPosFrac (-a).toNat b
    let nd : Int × Nat :=
      if 0 ≤ mE.2 then (1 - 2 * (mE.1 : Int) * 2 ^ mE.2.toNat, 2)
      else ((2 : Int) ^ ((-mE.2).toNat - 1) - (mE.1 : Int), 2 ^ (-mE.2).toNat)
    let mE2 := rndPosFrac nd.1.natAbs nd.2
    let t : Int := (truncPosPair mE2.1 mE2.2 : Int)
    if nd.1 = 0 then 0 else if 0 < nd.1 then t else -t

/-- Method `KModInt.compress` (slide 57): `int(0.5 + self.r * 2**d /
self.q) % 2**d`.  `self.r * 2**d` is an exact Python int; the division
`int / int` and the addition `0.5 + x` are binary64 operations and
`int()` truncates toward zero, all modelled by `floatHalfAdd`. -/
def KModInt.compress (q r : Int) (d : Nat) : Int :=
  floatHalfAdd (r * 2 ^ d) q.toNat % 2 ^ d

/-- Classmethod `KModInt.decompress` (slide 57): `cls(int(0.5 + y * q /
2**d), q)`, with the same binary64 reading (`y * q` is an exact int,
`int / int` one float division, `0.5 + x` one float addition); the
`ModInt` constructor reduces modulo `q`. -/
def KModInt.decompress (q y : Int) (d : Nat) : Int :=
  floatHalfAdd (y * q) (2 ^ d) % q

/-- Modelled from the spec: `Compress_d(r)` as exact round-half-up
arithmetic, `floor(0.5 + r * 2^d / q) mod 2^d` (spec section 4.4).  This
is the reference that the float-based `KModInt.compress` approximates;
the two are compared in the C5 theorems. -/
def compressExact (q r : Int) (d : Nat) : Int :=
  ⌊(1 / 2 : ℚ) + (r : ℚ) * 2 ^ d / (q : ℚ)⌋ % 2 ^ d

/-- Modelled from the spec: `Decompress_d(y)` as exact round-half-up
arithmetic, `floor(0.5 + y * q / 2^d) mod q` (spec section 4.4), the
reference that the float-based `KModInt.decompress` approximates. -/
def decompressExact (q y : Int) (d : Nat) : Int :=
  ⌊(1 / 2 : ℚ) + (y : ℚ) * (q : ℚ) / 2 ^ d⌋ % q

/-- Classmethod `KModInt.cbd_from_bits`: `sum(bits[:eta]) - sum(bits[eta:])`
reduced by the `ModInt` constructor (`Q = 3329`). -/
def KModInt.cbd_from_bits (eta : Nat) (bits : List Nat) : Int :=
  (((bits.take eta).sum : Int) - ((bits.drop eta).sum : Int)) % 3329

/-- Python slicing loop `[B[i:i+size] for i in range(0, len(B), size)]`.
A `size` of zero would raise `ValueError` in `range`; all call sites pass a
positive size. -/
def chunks (size : Nat) (B : List Nat) : List (List Nat) :=
  if h : size = 0 ∨ B = [] then [] else B.take size :: chunks size (B.drop size)
termination_by B.length
decreasing_by
  push_neg at h
  have h2 : 0 < B.length := List.length_pos.mpr h.2
  simp only [List.length_drop]
  omega

/-- Python `int(c_i)` on a coefficient: the stored representative, which is
nonnegative. -/
def coefToNat (c : Int) : Nat := c.toNat

/-- Method `KModPol.to_bytes` (ByteEncode_12), including its
`NotImplementedError` guard on `q.bit_length() != 12 or n % 8 != 0`. -/
def KModPol.to_bytes (p : ZPoly) : Option Bytes :=
  if bitLength 3329 = 12 ∧ 256 % 8 = 0 then bytes_from_ints 12 (p.map coefToNat)
  else none

/-- Classmethod `KModPol.from_bytes` (ByteDecode_12): each decoded 12-bit
integer passes through the `KModInt` constructor, reducing modulo 3329. -/
def KModPol.from_bytes (B : Bytes) : Option ZPoly :=
  mkPol 256 ((ints_from_bytes 12 B).map (fun c => Int.ofNat c % 3329))

/-- Method `KModPol.compress_to_bytes`: `bytes_from_ints(d, compress(d))`.
The compressed values lie in `[0, 2^d)` so the `Int.toNat` view is exact. -/
def KModPol.compress_to_bytes (p : ZPoly) (d : Nat) : Option Bytes :=
  bytes_from_ints d (p.map (fun c => (KModInt.compress 3329 c d).toNat))

/-- Classmethod `KModPol.decompress_from_bytes`. -/
def KModPol.decompress_from_bytes (d : Nat) (B : Bytes) : Option ZPoly :=
  mkPol 256 ((ints_from_bytes d B).map (fun y => KModInt.decompress 3329 (Int.ofNat y) d))

/-- Method `KVec.to_bytes`: concatenation of the serialized items. -/
def KVec.to_bytes (v : List ZPoly) : Option Bytes := do
  let bs ← v.mapM KModPol.to_bytes
  pure bs.flatten

/-- Classmethod `KVec.from_bytes`: split into 384-byte chunks. -/
def KVec.from_bytes (B : Bytes) : Option (List ZPoly) := do
  let v ← (chunks 384 B).mapM KModPol.from_bytes
  mkVec v

/-- Method `KVec.compress_to_bytes`. -/
def KVec.compress_to_bytes (v : List ZPoly) (d : Nat) : Option Bytes := do
  let bs ← v.mapM (fun p => KModPol.compress_to_bytes p d)
  pure bs.flatten

/-- Classmethod `KVec.decompress_from_bytes`: split into `d * 32`-byte
chunks. -/
def KVec.decompress_from_bytes (d : Nat) (B : Bytes) : Option (List ZPoly) := do
  let v ← (chunks (d * 32) B).mapM (KModPol.decompress_from_bytes d)
  mkVec v

/-! ### Symmetric primitives (`kyber_sym.py`).  The four `hashlib`
primitives are external to the repository and are abstracted as a structure
carrying the output-length guarantees of `hashlib` digests. -/

structure SymCrypto where
  shake128 : Bytes → Nat → Bytes
  shake256 : Bytes → Nat → Bytes
  sha3_256 : Bytes → Bytes
  sha3_512 : Bytes → Bytes
  shake128_length : ∀ B n, (shake128 B n).length = n
  shake256_length : ∀ B n, (shake256 B n).length = n
  sha3_256_length : ∀ B, (sha3_256 B).length = 32
  sha3_512_length : ∀ B, (sha3_512 B).length = 64

/-- Function `G` from `kyber_sym.py`: SHA3-512 split into two 32-byte
halves. -/
def symG (S : SymCrypto) (c : Bytes) : Bytes × Bytes :=
  ((S.sha3_512 c).take 32, (S.sha3_512 c).drop 32)

/-- Function `H` from `kyber_sym.py`. -/
def symH (S : SymCrypto) (s : Bytes) : Bytes := S.sha3_256 s

/-- Function `J` from `kyber_sym.py`: SHAKE256 truncated to 32 bytes. -/
def symJ (S : SymCrypto) (s : Bytes) : Bytes := S.shake256 s 32

/-- State of the `XOF` wrapper: absorbed data plus the squeeze offset. -/
structure XOFState where
  data : Bytes
  offset : Nat

/-- Method `XOF.squeeze`: `digest(offset + l)[offset:]` and advance the
offset. -/
def XOF.squeeze (S : SymCrypto) (st : XOFState) (l : Nat) : Bytes × XOFState :=
  ((S.shake128 st.data (st.offset + l)).drop st.offset, ⟨st.data, st.offset + l⟩)

/-- State of the stateful `PRF`: the seed and the one-byte counter. -/
structure PRFState where
  s : Bytes
  b : Nat

/-- Constructor `PRF.__init__`: counter starts at 0. -/
def PRF.init (seed : Bytes) : PRFState := ⟨seed, 0⟩

/-- Method `PRF.next`: `shake_256(s + b.to_bytes(1)).digest(64 * eta)` and
increment `b`.  `b.to_bytes(1)` raises `OverflowError` when `b > 255`, in
which case the counter is not incremented (the exception is raised before
the increment). -/
def PRF.next (S : SymCrypto) (st : PRFState) (eta : Nat) : Option (Bytes × PRFState) :=
  if st.b ≤ 255 then some (S.shake256 (st.s ++ [st.b]) (64 * eta), ⟨st.s, st.b + 1⟩)
  else none

/-- A sequence of `PRF.next` calls with the given `eta` arguments, returning
all outputs and the final state. -/
def PRF.run (S : SymCrypto) (st : PRFState) : List Nat → Option (List Bytes × PRFState)
  | [] => some ([], st)
  | eta :: rest => do
    let (out, st1) ← PRF.next S st eta
    let (outs, st2) ← PRF.run S st1 rest
    pure (out :: outs, st2)

/-- Classmethod `KModPol.cbd_from_prf` (SamplePolyCBD): one PRF output,
an `assert len(B) == 64 * eta`, then one coefficient per `2 * eta` bits. -/
def KModPol.cbd_from_prf (S : SymCrypto) (eta : Nat) (st : PRFState) :
    Option (ZPoly × PRFState) := do
  let (B, st1) ← PRF.next S st eta
  if B.length = 64 * eta then
    let bits := bits_from_bytes B
    let p ← mkPol 256 ((chunks (2 * eta) bits).map (KModInt.cbd_from_bits eta))
    pure (p, st1)
  else none

/-- The `k`-element list comprehension inside `KVec.cbd_from_prf`, threading
the PRF state left to right. -/
def KVec.cbdListFromPrf (S : SymCrypto) (eta : Nat) : Nat → PRFState →
    Option (List ZPoly × PRFState)
  | 0, st => pure ([], st)
  | k + 1, st => do
    let (p, st1) ← KModPol.cbd_from_prf S eta st
    let (v, st2) ← KVec.cbdListFromPrf S eta k st1
    pure (p :: v, st2)

/-- Classmethod `KVec.cbd_from_prf`: the comprehension followed by the `Vec`
constructor. -/
def KVec.cbd_from_prf (S : SymCrypto) (k eta : Nat) (st : PRFState) :
    Option (List ZPoly × PRFState) := do
  let (v, st1) ← KVec.cbdListFromPrf S eta k st
  let v2 ← mkVec v
  pure (v2, st1)

/-- The rejection-sampling `while` loop of `KModPol.uni_from_seed`
(SampleNTT).  The Python loop is unbounded (almost surely finite for a real
XOF); `fuel` bounds the number of iterations considered, `none` standing for
a run that needs more squeezes than that, as well as for the tuple-unpacking
error when a squeeze does not yield exactly two 12-bit values (it always
does, by the XOF length guarantee). -/
def uniLoop (S : SymCrypto) (q : Int) (n : Nat) :
    Nat → XOFState → List Int → Option ZPoly
  | 0, _, _ => none
  | fuel + 1, st, a =>
    if n ≤ a.length then mkPol n a
    else
      let Cst := XOF.squeeze S st 3
      match ints_from_bytes 12 Cst.1 with
      | [d1, d2] =>
        let a1 := if (d1 : Int) < q then a ++ [(d1 : Int) % q] else a
        let a2 := if (d2 : Int) < q ∧ a1.length < n then a1 ++ [(d2 : Int) % q] else a1
        uniLoop S q n fuel Cst.2 a2
      | _ => none

/-- Classmethod `KModPol.uni_from_seed` (SampleNTT), including the
`NotImplementedError` guard on the bit length of `q`. -/
def KModPol.uni_from_seed (S : SymCrypto) (fuel : Nat) (q : Int) (n : Nat)
    (B : Bytes) : Option ZPoly :=
  if bitLength q.toNat ≠ 12 then none
  else uniLoop S q n fuel ⟨B, 0⟩ []

/-- Classmethod `KMat.uni_from_seed` as defined in `kyber_math.py` (lines
205-222): four positional parameters `(q, n, k, rho)`, entry `(i, j)` drawn
from seed `rho || byte(j) || byte(i)`. -/
def KMat.uni_from_seed (S : SymCrypto) (fuel : Nat) (q : Int) (n k : Nat)
    (rho : Bytes) : Option (List (List ZPoly)) := do
  let lines ← (List.range k).mapM (fun i => do
    let row ← (List.range k).mapM (fun j =>
      KModPol.uni_from_seed S fuel q n (rho ++ [j, i]))
    mkVec row)
  if lines.length ≠ 0 then some lines else none

/-- Call site `KMat.uni_from_seed(self.k, rho)` in `kyber.py` (lines 48 and
67).  The classmethod defined in `kyber_math.py` requires the four
positional arguments `(q, n, k, rho)` besides `cls`; the call supplies only
two, so Python raises `TypeError: uni_from_seed() missing 2 required
positional arguments` on every invocation.  The raised exception is
modelled as `none`. -/
def KMat.uniFromSeedCallsite (k : Nat) (rho : Bytes) :
    Option (List (List ZPoly)) := none

/-! ### `kyber.py`: K-PKE and the ML-KEM internal algorithms -/

/-- Parameter records of `KyberPKE.__init__` (Table 2 of FIPS 203):
`(k, eta1, eta2, du, dv)`. -/
structure KParams where
  k : Nat
  eta1 : Nat
  eta2 : Nat
  du : Nat
  dv : Nat
deriving DecidableEq

/-- The parameter-set dispatch of `KyberPKE.__init__`; anything outside
512/768/1024 raises `ValueError`. -/
def paramSet (ps : Nat) : Option KParams :=
  if ps = 512 then some ⟨2, 3, 2, 10, 4⟩
  else if ps = 768 then some ⟨3, 2, 2, 10, 4⟩
  else if ps = 1024 then some ⟨4, 2, 2, 11, 5⟩
  else none

/-- Method `KyberPKE.keygen` (Algorithm 13, NTT omitted). -/
def pkeKeygen (S : SymCrypto) (P : KParams) (d : Bytes) : Option (Bytes × Bytes) := do
  let rs := symG S (d ++ [P.k])
  let rho := rs.1
  let prf := PRF.init rs.2
  let A ← KMat.uniFromSeedCallsite P.k rho
  let (s, prf1) ← KVec.cbd_from_prf S P.k P.eta1 prf
  let (e, _) ← KVec.cbd_from_prf S P.k P.eta2 prf1
  let As ← matVecMul 3329 256 A s
  let t ← vecAdd 3329 256 As e
  let tb ← KVec.to_bytes t
  let sb ← KVec.to_bytes s
  pure (tb ++ rho, sb)

/-- Method `KyberPKE.encrypt` (Algorithm 14, NTT omitted). -/
def pkeEncrypt (S : SymCrypto) (P : KParams) (ek m r : Bytes) : Option Bytes := do
  let t ← KVec.from_bytes (ek.take (384 * P.k))
  let rho := ek.drop (384 * P.k)
  let A ← KMat.uniFromSeedCallsite P.k rho
  let prf := PRF.init r
  let (rv, prf1) ← KVec.cbd_from_prf S P.k P.eta1 prf
  let (e1, prf2) ← KVec.cbd_from_prf S P.k P.eta2 prf1
  let (e2, _) ← KModPol.cbd_from_prf S P.eta2 prf2
  let mu ← KModPol.decompress_from_bytes 1 m
  let At ← matTranspose A
  let Atr ← matVecMul 3329 256 At rv
  let u ← vecAdd 3329 256 Atr e1
  let tr ← vecDot 3329 256 t rv
  let tre2 ← polAdd 3329 256 tr e2
  let v ← polAdd 3329 256 tre2 mu
  let c1 ← KVec.compress_to_bytes u P.du
  let c2 ← KModPol.compress_to_bytes v P.dv
  pure (c1 ++ c2)

/-- Method `KyberPKE.decrypt` (Algorithm 15, NTT omitted). -/
def pkeDecrypt (P : KParams) (dk c : Bytes) : Option Bytes := do
  let c1 := c.take (32 * P.du * P.k)
  let c2 := c.drop (32 * P.du * P.k)
  let ud ← KVec.decompress_from_bytes P.du c1
  let vd ← KModPol.decompress_from_bytes P.dv c2
  let s ← KVec.from_bytes dk
  let sud ← vecDot 3329 256 s ud
  let w ← polSub 3329 256 vd sud
  KModPol.compress_to_bytes w 1

/-- Method `KyberKEM.keygen_internal` (Algorithm 16). -/
def kemKeygenInternal (S : SymCrypto) (P : KParams) (d z : Bytes) :
    Option (Bytes × Bytes) := do
  let (ek, dkp) ← pkeKeygen S P d
  pure (ek, dkp ++ ek ++ symH S ek ++ z)

/-- Method `KyberKEM.encaps_internal` (Algorithm 17). -/
def kemEncapsInternal (S : SymCrypto) (P : KParams) (ek m : Bytes) :
    Option (Bytes × Bytes) := do
  let Kr := symG S (m ++ symH S ek)
  let c ← pkeEncrypt S P ek m Kr.2
  pure (Kr.1, c)

/-- Method `KyberKEM.decaps_internal` (Algorithm 18). -/
def kemDecapsInternal (S : SymCrypto) (P : KParams) (dk c : Bytes) :
    Option Bytes := do
  let dkPke := dk.take (384 * P.k)
  let ekPke := (dk.drop (384 * P.k)).take (384 * P.k + 32)
  let h := (dk.drop (768 * P.k + 32)).take 32
  let z := (dk.drop (768 * P.k + 64)).take 32
  let m1 ← pkeDecrypt P dkPke c
  let Kr := symG S (m1 ++ h)
  let c1 ← pkeEncrypt S P ekPke m1 Kr.2
  pure (if c1 ≠ c then symJ S (z ++ c) else Kr.1)

/-- A degenerate instantiation of the abstracted `hashlib` primitives
(all-zero digests), used to evaluate the model on concrete inputs. -/
def trivSym : SymCrypto where
  shake128 := fun _ n => List.replicate n 0
  shake256 := fun _ n => List.replicate n 0
  sha3_256 := fun _ => List.replicate 32 0
  sha3_512 := fun _ => List.replicate 64 0
  shake128_length := fun _ n => List.length_replicate n 0
  shake256_length := fun _ n => List.length_replicate n 0
  sha3_256_length := fun _ => List.length_replicate 32 0
  sha3_512_length := fun _ => List.length_replicate 64 0

/-! ### Basic lemmas on the bit and byte conversions -/

theorem bitsOfInt_length (d x : Nat) : (bitsOfInt d x).length = d := by
  induction d generalizing x with
  | zero => rfl
  | succ d ih => simp [bitsOfInt, ih]

theorem bitsOfInt_le_one (d x : Nat) : ∀ b ∈ bitsOfInt d x, b ≤ 1 := by
  induction d generalizing x with
  | zero => simp [bitsOfInt]
  | succ d ih =>
    intro b hb
    simp only [bitsOfInt, List.mem_cons] at hb
    rcases hb with h | h
    · omega
    · exact ih _ b h

theorem bits_from_ints_length (d : Nat) (ints : List Nat) :
    (bits_from_ints d ints).length = d * ints.length := by
  induction ints with
  | nil => simp [bits_from_ints]
  | cons x xs ih =>
    simp only [bits_from_ints, List.flatMap_cons, List.length_append,
      bitsOfInt_length, List.length_cons, Nat.mul_succ] at ih ⊢
    omega

theorem bits_from_ints_le_one (d : Nat) (ints : List Nat) :
    ∀ b ∈ bits_from_ints d ints, b ≤ 1 := by
  intro b hb
  simp only [bits_from_ints, List.mem_flatMap] at hb
  obtain ⟨x, _, hx⟩ := hb
  exact bitsOfInt_le_one d x b hx

theorem valLE_lt (d : Nat) (bs : List Nat) (hlen : bs.length = d)
    (hb : ∀ b ∈ bs, b ≤ 1) : valLE bs < 2 ^ d := by
  induction bs generalizing d with
  | nil => simp [valLE]
  | cons b t ih =>
    subst hlen
    have hb1 : b ≤ 1 := hb b (by simp)
    have ht := ih t.length rfl (fun x hx => hb x (by simp [hx]))
    simp only [valLE, List.length_cons, pow_succ]
    omega

/-- The counter argument of `intsFromBitsAux` only matters through its value
modulo `d`. -/
theorem intsFromBitsAux_mod (d : Nat) (bs : List Nat) (x i j : Nat)
    (h : i % d = j % d) :
    intsFromBitsAux d bs x i = intsFromBitsAux d bs x j := by
  induction bs generalizing x i j with
  | nil => rfl
  | cons b t ih =>
    have h1 : (i + 1) % d = (j + 1) % d := by
      conv_lhs => rw [Nat.add_mod, h, ← Nat.add_mod]
    simp only [intsFromBitsAux, h]
    rcases Nat.decEq (j % d) (d - 1) with h2 | h2
    · simp only [if_neg h2, ih _ _ _ h1]
    · simp only [if_pos h2, ih _ _ _ h1]

theorem intsFromBitsAux_cons (d b : Nat) (bs : List Nat) (x i : Nat) :
    intsFromBitsAux d (b :: bs) x i =
      if i % d = d - 1 then (x + b * 2 ^ (i % d)) :: intsFromBitsAux d bs 0 (i + 1)
      else intsFromBitsAux d bs (x + b * 2 ^ (i % d)) (i + 1) := rfl

theorem mod_succ_step (i d : Nat) (h : i % d + 1 < d) : (i + 1) % d = i % d + 1 := by
  have h1 : (1 : Nat) % d = 1 := Nat.mod_eq_of_lt (by omega)
  rw [Nat.add_mod, h1, Nat.mod_eq_of_lt (by omega)]

/-- Processing one group through `intsFromBitsAux`: consuming `chunk` (of
length at most `d`, positioned so that it finishes the current group) emits
one integer and restarts the accumulator. -/
theorem intsFromBitsAux_chunk (d : Nat) (chunk rest : List Nat) (x i : Nat)
    (hd : 1 ≤ chunk.length) (hlen : chunk.length ≤ d)
    (hi : i % d = d - chunk.length) :
    intsFromBitsAux d (chunk ++ rest) x i
      = (x + valLE chunk * 2 ^ (d - chunk.length))
        :: intsFromBitsAux d rest 0 (i + chunk.length) := by
  induction chunk generalizing x i with
  | nil => simp at hd
  | cons b t ih =>
    rcases t with _ | ⟨b2, t2⟩
    · have hi1 : i % d = d - 1 := by simpa using hi
      rw [List.cons_append, List.nil_append, intsFromBitsAux_cons, if_pos hi1, hi1]
      simp [valLE]
    · simp only [List.length_cons] at hi hlen
      have hne : ¬ i % d = d - 1 := by omega
      have hstep : (i + 1) % d = d - (b2 :: t2).length := by
        rw [mod_succ_step i d (by omega)]
        simp only [List.length_cons]
        omega
      have hrec := ih (x + b * 2 ^ (i % d)) (i + 1) (by simp)
        (by simp only [List.length_cons]; omega) hstep
      rw [List.cons_append, intsFromBitsAux_cons, if_neg hne, hrec]
      congr 1
      · have he : d - ((b2 :: t2).length) = (d - ((b :: b2 :: t2).length)) + 1 := by
          simp only [List.length_cons]
          omega
        rw [he, hi, pow_succ]
        simp only [valLE, List.length_cons]
        ring
      · have harg : i + 1 + (b2 :: t2).length = i + (b :: b2 :: t2).length := by
          simp only [List.length_cons]
          omega
        rw [harg]

/-- Consuming a complete `d`-bit group from a group boundary. -/
theorem ints_from_bits_chunk (d : Nat) (chunk rest : List Nat)
    (hd : 1 ≤ d) (hlen : chunk.length = d) :
    ints_from_bits d (chunk ++ rest)
      = valLE chunk :: ints_from_bits d rest := by
  have h := intsFromBitsAux_chunk d chunk rest 0 0 (by omega) (by omega)
    (by simp [hlen])
  rw [ints_from_bits, h, hlen, Nat.sub_self, pow_zero]
  have h2 : intsFromBitsAux d rest 0 (0 + d) = intsFromBitsAux d rest 0 0 :=
    intsFromBitsAux_mod d rest 0 (0 + d) 0 (by simp)
  rw [h2]
  simp [ints_from_bits]

/-- A trailing group that is never completed is silently discarded. -/
theorem intsFromBitsAux_short (d : Nat) (bs : List Nat) (x i : Nat)
    (h : i % d + bs.length < d) :
    intsFromBitsAux d bs x i = [] := by
  induction bs generalizing x i with
  | nil => rfl
  | cons b t ih =>
    simp only [List.length_cons] at h
    have hne : ¬ i % d = d - 1 := by omega
    rw [intsFromBitsAux_cons, if_neg hne]
    apply ih
    rw [mod_succ_step i d (by omega)]
    omega

theorem ints_from_bits_short (d : Nat) (bs : List Nat)
    (h : bs.length < d) : ints_from_bits d bs = [] :=
  intsFromBitsAux_short d bs 0 0 (by simpa using h)

/-- Length of `ints_from_bits`, together with the fact that the trailing
incomplete group (if any) is discarded. -/
theorem ints_from_bits_spec (d : Nat) (bs : List Nat) (hd : 1 ≤ d) :
    (ints_from_bits d bs).length = bs.length / d
      ∧ ints_from_bits d bs = ints_from_bits d (bs.take (d * (bs.length / d))) := by
  generalize hm : bs.length = m
  induction m using Nat.strong_induction_on generalizing bs with
  | _ m ih =>
    subst hm
    by_cases hlt : bs.length < d
    · rw [ints_from_bits_short d bs hlt, Nat.div_eq_of_lt hlt]
      simp [ints_from_bits, intsFromBitsAux]
    · push_neg at hlt
      have hbs : bs = bs.take d ++ bs.drop d := (List.take_append_drop d bs).symm
      have hlen : (bs.take d).length = d := by
        rw [List.length_take]
        omega
      have hrec := ih (bs.drop d).length (by simp; omega) (bs.drop d) rfl
      have hq : bs.length / d = (bs.drop d).length / d + 1 := by
        rw [List.length_drop]
        rw [Nat.div_eq_sub_div (by omega) hlt]
      constructor
      · conv_lhs => rw [hbs]
        rw [ints_from_bits_chunk d _ _ hd hlen]
        simp only [List.length_cons, hrec.1, hq]
      · have htake : bs.take (d * (bs.length / d))
            = bs.take d ++ (bs.drop d).take (d * ((bs.drop d).length / d)) := by
          have hsplit : d * (bs.length / d) = d + d * ((bs.drop d).length / d) := by
            rw [hq]
            ring
          rw [hsplit, List.take_add]
        conv_lhs => rw [hbs]
        rw [ints_from_bits_chunk d _ _ hd hlen, htake,
          ints_from_bits_chunk d _ _ hd hlen, hrec.2]

theorem valLE_bitsOfInt (d x : Nat) : valLE (bitsOfInt d x) = x % 2 ^ d := by
  induction d generalizing x with
  | zero => simp [bitsOfInt, valLE, Nat.mod_one]
  | succ d ih =>
    rw [pow_succ']
    rw [Nat.mod_mul]
    simp only [bitsOfInt, valLE, ih]

theorem bitsOfInt_valLE (chunk : List Nat) (hb : ∀ b ∈ chunk, b ≤ 1) :
    bitsOfInt chunk.length (valLE chunk) = chunk := by
  induction chunk with
  | nil => rfl
  | cons b t ih =>
    have hb1 : b ≤ 1 := hb b (by simp)
    simp only [List.length_cons, bitsOfInt, valLE]
    have h1 : (b + 2 * valLE t) % 2 = b := by omega
    have h2 : (b + 2 * valLE t) / 2 = valLE t := by omega
    rw [h1, h2, ih (fun x hx => hb x (by simp [hx]))]

/-- Round trip law at the integer-list level: unpacking the packed bits
recovers the original `d`-bit integers. -/
theorem ints_from_bits_of_bits_from_ints (d : Nat) (xs : List Nat)
    (hd : 1 ≤ d) (hx : ∀ x ∈ xs, x < 2 ^ d) :
    ints_from_bits d (bits_from_ints d xs) = xs := by
  induction xs with
  | nil => simp [bits_from_ints, ints_from_bits, intsFromBitsAux]
  | cons x t ih =>
    have hcons : bits_from_ints d (x :: t) = bitsOfInt d x ++ bits_from_ints d t := by
      simp [bits_from_ints]
    rw [hcons, ints_from_bits_chunk d _ _ hd (bitsOfInt_length d x),
      valLE_bitsOfInt, Nat.mod_eq_of_lt (hx x (by simp)),
      ih (fun y hy => hx y (by simp [hy]))]

/-- Reverse round trip law: re-packing the unpacked groups recovers the
original bit string (when its length is a multiple of `d`). -/
theorem bits_from_ints_of_ints_from_bits (d : Nat) (bits : List Nat)
    (hd : 1 ≤ d) (hb : ∀ b ∈ bits, b ≤ 1) (hdvd : d ∣ bits.length) :
    bits_from_ints d (ints_from_bits d bits) = bits := by
  generalize hm : bits.length = m
  induction m using Nat.strong_induction_on generalizing bits with
  | _ m ih =>
    subst hm
    rcases Nat.eq_zero_or_pos bits.length with h0 | hpos
    · rw [List.length_eq_zero.mp h0]
      simp [bits_from_ints, ints_from_bits, intsFromBitsAux]
    · have hge : d ≤ bits.length := Nat.le_of_dvd hpos hdvd
      have hbs : bits = bits.take d ++ bits.drop d := (List.take_append_drop d bits).symm
      have hlen : (bits.take d).length = d := by
        rw [List.length_take]
        omega
      conv_lhs => rw [hbs]
      rw [ints_from_bits_chunk d _ _ hd hlen]
      have hchunk : bits_from_ints d (valLE (bits.take d) :: ints_from_bits d (bits.drop d))
          = bitsOfInt d (valLE (bits.take d)) ++ bits_from_ints d (ints_from_bits d (bits.drop d)) := by
        simp [bits_from_ints]
      rw [hchunk]
      have hhead : bitsOfInt d (valLE (bits.take d)) = bits.take d := by
        have h := bitsOfInt_valLE (bits.take d)
          (fun b hb1 => hb b (List.take_subset d bits hb1))
        rw [hlen] at h
        exact h
      have htail : bits_from_ints d (ints_from_bits d (bits.drop d)) = bits.drop d := by
        refine ih (bits.drop d).length ?_ (bits.drop d) ?_ ?_ rfl
        · simp
          omega
        · exact fun b hb1 => hb b (List.drop_subset d bits hb1)
        · rw [List.length_drop]
          exact Nat.dvd_sub' hdvd (dvd_refl d)
      rw [hhead, htail]
      exact (List.take_append_drop d bits)

/-- Every value produced by `ints_from_bits` from genuine bits fits in
`d` bits. -/
theorem ints_from_bits_lt (d : Nat) (bits : List Nat) (hd : 1 ≤ d)
    (hb : ∀ b ∈ bits, b ≤ 1) : ∀ y ∈ ints_from_bits d bits, y < 2 ^ d := by
  generalize hm : bits.length = m
  induction m using Nat.strong_induction_on generalizing bits with
  | _ m ih =>
    subst hm
    by_cases hlt : bits.length < d
    · rw [ints_from_bits_short d bits hlt]
      simp
    · push_neg at hlt
      have hbs : bits = bits.take d ++ bits.drop d := (List.take_append_drop d bits).symm
      have hlen : (bits.take d).length = d := by
        rw [List.length_take]
        omega
      intro y hy
      conv at hy => rw [hbs]
      rw [ints_from_bits_chunk d _ _ hd hlen] at hy
      rcases List.mem_cons.mp hy with h | h
      · subst h
        exact valLE_lt d _ hlen (fun b hb1 => hb b (List.take_subset d bits hb1))
      · exact ih (bits.drop d).length (by simp; omega) (bits.drop d)
          (fun b hb1 => hb b (List.drop_subset d bits hb1)) rfl y h

theorem mapM_byteOf_some (l : List Nat) (h : ∀ x ∈ l, x < 256) :
    l.mapM byteOf = some l := by
  induction l with
  | nil => rfl
  | cons x t ih =>
    rw [List.mapM_cons]
    rw [show byteOf x = some x from if_pos (h x (by simp))]
    rw [ih (fun y hy => h y (by simp [hy]))]
    rfl

/-- Element `i` of `ints_from_bits` is the value of the `i`-th `d`-bit
group. -/
theorem ints_from_bits_getD (d : Nat) (bits : List Nat) (i : Nat)
    (hd : 1 ≤ d) (hlen : d * (i + 1) ≤ bits.length) :
    (ints_from_bits d bits).getD i 0 = valLE ((bits.drop (d * i)).take d) := by
  induction i generalizing bits with
  | zero =>
    have hge : d ≤ bits.length := by omega
    have hbs : bits = bits.take d ++ bits.drop d := (List.take_append_drop d bits).symm
    have hlen2 : (bits.take d).length = d := by
      rw [List.length_take]
      omega
    conv_lhs => rw [hbs]
    rw [ints_from_bits_chunk d _ _ hd hlen2]
    simp
  | succ i ih =>
    have hge : d ≤ bits.length := by nlinarith
    have hbs : bits = bits.take d ++ bits.drop d := (List.take_append_drop d bits).symm
    have hlen2 : (bits.take d).length = d := by
      rw [List.length_take]
      omega
    conv_lhs => rw [hbs]
    rw [ints_from_bits_chunk d _ _ hd hlen2, List.getD_cons_succ]
    have hrec := ih (bits.drop d)
      (by rw [List.length_drop]
          have he : d * (i + 1 + 1) = d * (i + 1) + d := by ring
          omega)
    rw [hrec, List.drop_drop]
    have harg : d + d * i = d * (i + 1) := by ring
    rw [harg]

/-- Packing `d`-bit integers into bytes never raises and produces
`d * len / 8` bytes, namely the 8-bit groups of the concatenated bits. -/
theorem bytes_from_ints_some (d : Nat) (F : List Nat) :
    bytes_from_ints d F = some (ints_from_bits 8 (bits_from_ints d F))
      ∧ (ints_from_bits 8 (bits_from_ints d F)).length = d * F.length / 8 := by
  constructor
  · rw [bytes_from_ints, bytes_from_bits]
    apply mapM_byteOf_some
    intro x hx
    exact ints_from_bits_lt 8 _ (by omega) (bits_from_ints_le_one d F) x hx
  · rw [(ints_from_bits_spec 8 _ (by omega)).1, bits_from_ints_length]

/-- Shape of `chunks` on an input whose length is an exact multiple of the
chunk size. -/
theorem chunks_exact (size : Nat) (hsize : 1 ≤ size) :
    ∀ (k : Nat) (B : List Nat), B.length = k * size →
      (chunks size B).length = k ∧ ∀ c ∈ chunks size B, c.length = size := by
  intro k
  induction k with
  | zero =>
    intro B hB
    have hB0 : B = [] := List.length_eq_zero.mp (by omega)
    rw [chunks, dif_pos (Or.inr hB0)]
    simp
  | succ k ih =>
    intro B hB
    have hBne : B ≠ [] := by
      intro h
      rw [h] at hB
      simp at hB
      omega
    rw [chunks, dif_neg (by push_neg; exact ⟨by omega, hBne⟩)]
    have hge : size ≤ B.length := by
      rw [hB]
      nlinarith
    have hdrop : (B.drop size).length = k * size := by
      rw [List.length_drop, hB]
      ring_nf
      omega
    obtain ⟨ih1, ih2⟩ := ih (B.drop size) hdrop
    refine ⟨by simp [ih1], ?_⟩
    intro c hc
    rcases List.mem_cons.mp hc with h | h
    · subst h
      rw [List.length_take]
      omega
    · exact ih2 c h

/-- Success of `List.mapM` given pointwise success with a property of the results. -/
theorem mapM_some_of_forall {α β : Type} (f : α → Option β) (P : β → Prop) :
    ∀ (l : List α), (∀ a ∈ l, ∃ b, f a = some b ∧ P b) →
      ∃ l2, l.mapM f = some l2 ∧ l2.length = l.length ∧ ∀ b ∈ l2, P b := by
  intro l
  induction l with
  | nil => exact fun _ => ⟨[], rfl, rfl, by simp⟩
  | cons a t ih =>
    intro h
    obtain ⟨b, hb, hPb⟩ := h a (by simp)
    obtain ⟨l2, hl2, hlen, hP⟩ := ih (fun x hx => h x (by simp [hx]))
    refine ⟨b :: l2, ?_, by simp [hlen], ?_⟩
    · rw [List.mapM_cons, hb, hl2]
      rfl
    · intro x hx
      rcases List.mem_cons.mp hx with h1 | h1
      · subst h1
        exact hPb
      · exact hP x h1

theorem mulStep_length (q : Int) (n i j : Nat) (p : Int) (c : ZPoly) :
    (mulStep q n i j p c).length = c.length := by
  rw [mulStep]
  split <;> simp

theorem foldl_len {α : Type} (f : ZPoly → α → ZPoly)
    (h : ∀ c a, (f c a).length = c.length) :
    ∀ (l : List α) (c : ZPoly), (l.foldl f c).length = c.length := by
  intro l
  induction l with
  | nil => intro c; rfl
  | cons a t ih =>
    intro c
    rw [List.foldl_cons, ih, h]

theorem mulRaw_length (q : Int) (n : Nat) (a b : ZPoly) :
    (mulRaw q n a b).length = n := by
  rw [mulRaw]
  have houter : ∀ (c : ZPoly) (i : Nat),
      ((List.range b.length).foldl
        (fun c2 j => mulStep q n i j (modMul q (a.getD i 0) (b.getD j 0)) c2) c).length
        = c.length :=
    fun c i => foldl_len _ (fun c2 j => mulStep_length q n i j _ c2) _ c
  rw [foldl_len _ houter _ _]
  exact List.length_replicate n 0

theorem polMul_some (q : Int) (n : Nat) (hn : n ≠ 0) (a b : ZPoly) :
    polMul q n a b = some (mulRaw q n a b) := by
  rw [polMul, mkPol, if_pos ⟨mulRaw_length q n a b, hn⟩]

theorem polAdd_some (q : Int) (n : Nat) (hn : n ≠ 0) (a b : ZPoly)
    (ha : a.length = n) (hb : b.length = n) :
    polAdd q n a b = some (List.zipWith (modAdd q) a b)
      ∧ (List.zipWith (modAdd q) a b).length = n := by
  have hlen : (List.zipWith (modAdd q) a b).length = n := by
    rw [List.length_zipWith, ha, hb, Nat.min_self]
  exact ⟨by rw [polAdd, mkPol, if_pos ⟨hlen, hn⟩], hlen⟩

theorem polSub_some (q : Int) (n : Nat) (hn : n ≠ 0) (a b : ZPoly)
    (ha : a.length = n) (hb : b.length = n) :
    polSub q n a b = some (List.zipWith (modSub q) a b)
      ∧ (List.zipWith (modSub q) a b).length = n := by
  have hlen : (List.zipWith (modSub q) a b).length = n := by
    rw [List.length_zipWith, ha, hb, Nat.min_self]
  exact ⟨by rw [polSub, mkPol, if_pos ⟨hlen, hn⟩], hlen⟩

theorem vecDot_fold_some (q : Int) (n : Nat) (hn : n ≠ 0) :
    ∀ (L : List (ZPoly × ZPoly)) (acc : ZPoly), acc.length = n →
      ∃ p, (L.foldlM (fun acc2 xy => do
          let pr ← polMul q n xy.1 xy.2
          polAdd q n acc2 pr) acc : Option ZPoly) = some p ∧ p.length = n := by
  intro L
  induction L with
  | nil =>
    intro acc hacc
    exact ⟨acc, rfl, hacc⟩
  | cons xy t ih =>
    intro acc hacc
    obtain ⟨hadd, haddlen⟩ := polAdd_some q n hn acc (mulRaw q n xy.1 xy.2) hacc
      (mulRaw_length q n xy.1 xy.2)
    obtain ⟨p, hp, hplen⟩ := ih _ haddlen
    refine ⟨p, ?_, hplen⟩
    rw [List.foldlM_cons]
    rw [polMul_some q n hn]
    simp only [Option.bind_eq_bind, Option.some_bind]
    rw [hadd]
    simp only [Option.some_bind]
    exact hp

theorem vecDot_some (q : Int) (n : Nat) (hn : n ≠ 0) (a b : List ZPoly)
    (ha : a ≠ []) (hfst : ∀ x ∈ a, x.length = n) :
    ∃ p, vecDot q n a b = some p ∧ p.length = n := by
  rcases a with _ | ⟨a0, t⟩
  · simp at ha
  have ha0 : a0.length = n := hfst a0 (by simp)
  obtain ⟨hsub, hsublen⟩ := polSub_some q n hn a0 a0 ha0 ha0
  obtain ⟨p, hp, hplen⟩ := vecDot_fold_some q n hn (List.zip (a0 :: t) b) _ hsublen
  refine ⟨p, ?_, hplen⟩
  rw [vecDot]
  simp only [List.head?_cons, Option.bind_eq_bind, Option.some_bind]
  rw [hsub]
  simp only [Option.some_bind]
  exact hp

theorem ints_from_bytes_length (d : Nat) (B : Bytes) (hd : 1 ≤ d) :
    (ints_from_bytes d B).length = 8 * B.length / d := by
  rw [ints_from_bytes, (ints_from_bits_spec d _ hd).1, bits_from_bytes,
    bits_from_ints_length]

theorem kmodpol_from_bytes_some (B : Bytes) (hB : B.length = 384) :
    ∃ p, KModPol.from_bytes B = some p ∧ p.length = 256 := by
  have hlen : ((ints_from_bytes 12 B).map (fun c => Int.ofNat c % 3329)).length = 256 := by
    rw [List.length_map, ints_from_bytes_length 12 B (by omega), hB]
  exact ⟨_, by rw [KModPol.from_bytes, mkPol, if_pos ⟨hlen, by omega⟩], hlen⟩

theorem kmodpol_decompress_from_bytes_some (d : Nat) (B : Bytes)
    (hd : 1 ≤ d) (hB : B.length = 32 * d) :
    ∃ p, KModPol.decompress_from_bytes d B = some p ∧ p.length = 256 := by
  have hlen : ((ints_from_bytes d B).map
      (fun y => KModInt.decompress 3329 (Int.ofNat y) d)).length = 256 := by
    rw [List.length_map, ints_from_bytes_length d B hd, hB]
    rw [show 8 * (32 * d) = 256 * d by ring]
    exact Nat.mul_div_cancel 256 (by omega)
  exact ⟨_, by rw [KModPol.decompress_from_bytes, mkPol, if_pos ⟨hlen, by omega⟩], hlen⟩

theorem kvec_from_bytes_some (k : Nat) (B : Bytes) (hk : 1 ≤ k)
    (hB : B.length = k * 384) :
    ∃ v, KVec.from_bytes B = some v ∧ v.length = k ∧ ∀ p ∈ v, p.length = 256 := by
  obtain ⟨hclen, hcall⟩ := chunks_exact 384 (by omega) k B hB
  obtain ⟨v, hv, hvlen, hvall⟩ := mapM_some_of_forall KModPol.from_bytes
    (fun p => p.length = 256) (chunks 384 B)
    (fun c hc => kmodpol_from_bytes_some c (hcall c hc))
  refine ⟨v, ?_, by omega, hvall⟩
  rw [KVec.from_bytes]
  simp only [hv, Option.bind_eq_bind, Option.some_bind]
  rw [mkVec, if_pos (by omega)]

theorem kvec_decompress_from_bytes_some (d k : Nat) (B : Bytes)
    (hd : 1 ≤ d) (hk : 1 ≤ k) (hB : B.length = k * (d * 32)) :
    ∃ v, KVec.decompress_from_bytes d B = some v
      ∧ v.length = k ∧ ∀ p ∈ v, p.length = 256 := by
  obtain ⟨hclen, hcall⟩ := chunks_exact (d * 32) (by omega) k B hB
  obtain ⟨v, hv, hvlen, hvall⟩ := mapM_some_of_forall (KModPol.decompress_from_bytes d)
    (fun p => p.length = 256) (chunks (d * 32) B)
    (fun c hc => kmodpol_decompress_from_bytes_some d c hd
      (by rw [hcall c hc]; ring))
  refine ⟨v, ?_, by omega, hvall⟩
  rw [KVec.decompress_from_bytes]
  simp only [hv, Option.bind_eq_bind, Option.some_bind]
  rw [mkVec, if_pos (by omega)]

theorem KModPol.compress_to_bytes_some (p : ZPoly) (d : Nat) (hp : p.length = 256) :
    ∃ B, KModPol.compress_to_bytes p d = some B ∧ B.length = 32 * d := by
  obtain ⟨hsome, hlen⟩ := bytes_from_ints_some d
    (p.map (fun c => (KModInt.compress 3329 c d).toNat))
  refine ⟨_, by rw [KModPol.compress_to_bytes, hsome], ?_⟩
  rw [hlen, List.length_map, hp]
  rw [show d * 256 = 32 * d * 8 by ring]
  exact Nat.mul_div_cancel _ (by omega)

/-- Method `KyberPKE.decrypt` succeeds on any decryption key of length `384 k` and
any ciphertext of length `32 (du k + dv)`, whatever the byte contents, and
returns 32 bytes. -/
theorem pkeDecrypt_some (P : KParams) (hk : 1 ≤ P.k) (hdu : 1 ≤ P.du)
    (hdv : 1 ≤ P.dv) (dk c : Bytes) (hdk : dk.length = 384 * P.k)
    (hc : c.length = 32 * (P.du * P.k + P.dv)) :
    ∃ m, pkeDecrypt P dk c = some m ∧ m.length = 32 := by
  have hle : 32 * P.du * P.k ≤ c.length := by
    rw [hc]
    nlinarith
  have hc1 : (c.take (32 * P.du * P.k)).length = P.k * (P.du * 32) := by
    rw [List.length_take, Nat.min_eq_left hle]
    ring
  have hc2 : (c.drop (32 * P.du * P.k)).length = 32 * P.dv := by
    rw [List.length_drop, hc]
    have h2 : 32 * (P.du * P.k + P.dv) = 32 * P.du * P.k + 32 * P.dv := by ring
    omega
  obtain ⟨ud, hud, hudlen, hudall⟩ :=
    kvec_decompress_from_bytes_some P.du P.k _ hdu hk hc1
  obtain ⟨vd, hvd, hvdlen⟩ := kmodpol_decompress_from_bytes_some P.dv _ hdv hc2
  obtain ⟨s, hs, hslen, hsall⟩ := kvec_from_bytes_some P.k dk hk (by rw [hdk]; ring)
  have hsne : s ≠ [] := by
    intro h
    rw [h] at hslen
    simp at hslen
    omega
  obtain ⟨sud, hsud, hsudlen⟩ := vecDot_some 3329 256 (by omega) s ud hsne hsall
  obtain ⟨hw, hwlen⟩ := polSub_some 3329 256 (by omega) vd sud hvdlen hsudlen
  obtain ⟨mB, hmB, hmBlen⟩ := KModPol.compress_to_bytes_some _ 1 hwlen
  refine ⟨mB, ?_, by omega⟩
  rw [pkeDecrypt]
  simp only [Option.bind_eq_bind]
  rw [hud]
  simp only [Option.some_bind]
  rw [hvd]
  simp only [Option.some_bind]
  rw [hs]
  simp only [Option.some_bind]
  rw [hsud]
  simp only [Option.some_bind]
  rw [hw]
  simp only [Option.some_bind]
  exact hmB

/-- Method `KyberPKE.keygen` raises `TypeError` on every input: its call
`KMat.uni_from_seed(self.k, rho)` supplies two of the four required
positional arguments. -/
theorem pkeKeygen_none (S : SymCrypto) (P : KParams) (d : Bytes) :
    pkeKeygen S P d = none := rfl

/-- Method `KyberPKE.encrypt` raises `TypeError` on every input, for the same
reason as `KyberPKE.keygen` (after parsing `t`, whether or not that parse
itself raises). -/
theorem pkeEncrypt_none (S : SymCrypto) (P : KParams) (ek m r : Bytes) :
    pkeEncrypt S P ek m r = none := by
  rw [pkeEncrypt]
  cases KVec.from_bytes (ek.take (384 * P.k)) <;> rfl

theorem kemDecapsInternal_none (S : SymCrypto) (P : KParams) (dk c : Bytes) :
    kemDecapsInternal S P dk c = none := by
  rw [kemDecapsInternal]
  cases pkeDecrypt P (dk.take (384 * P.k)) c with
  | none => rfl
  | some m1 => simp [pkeEncrypt_none]

theorem paramSet_cases (ps : Nat) (P : KParams) (h : paramSet ps = some P) :
    P = ⟨2, 3, 2, 10, 4⟩ ∨ P = ⟨3, 2, 2, 10, 4⟩ ∨ P = ⟨4, 2, 2, 11, 5⟩ := by
  rw [paramSet] at h
  split_ifs at h <;> simp_all

theorem paramSet_bounds (ps : Nat) (P : KParams) (h : paramSet ps = some P) :
    1 ≤ P.k ∧ 1 ≤ P.du ∧ 1 ≤ P.dv := by
  rcases paramSet_cases ps P h with h1 | h1 | h1 <;> subst h1 <;>
    exact ⟨by decide, by decide, by decide⟩

/-- Claim C1.  The claim states that for every parameter set in
512/768/1024 and a freshly generated key pair, encapsulation and
decapsulation produce the same 32-byte shared key.  On this code the claim
fails before any key exists: `KyberKEM.keygen_internal` raises `TypeError`
for every derandomized input `d`, `z` (and every instantiation of the hash
primitives), because `KyberPKE.keygen` calls `KMat.uni_from_seed(self.k,
rho)` while the classmethod requires the four positional arguments
`(q, n, k, rho)`.  This theorem certifies the failing evaluation. -/
theorem C1_kem_keygen_raises (ps : Nat) (P : KParams)
    (hps : paramSet ps = some P) (S : SymCrypto) (d z : Bytes) :
    kemKeygenInternal S P d z = none := rfl

theorem C1_witness :
    paramSet 512 = some ⟨2, 3, 2, 10, 4⟩
      ∧ kemKeygenInternal trivSym ⟨2, 3, 2, 10, 4⟩
          (List.replicate 32 0) (List.replicate 32 0) = none :=
  ⟨rfl, C1_kem_keygen_raises 512 ⟨2, 3, 2, 10, 4⟩ rfl trivSym _ _⟩

/-- Claim C2.  The claim states the K-PKE round trip
`decrypt(dk, encrypt(ek, m, r)) == m` for keys from `keygen(d)`.  On this
code neither a key pair nor a ciphertext is ever produced:
`KyberPKE.keygen` and `KyberPKE.encrypt` both raise `TypeError` on every
input at their `KMat.uni_from_seed(self.k, rho)` call (two arguments
supplied, four required). -/
theorem C2_kpke_roundtrip_impossible (ps : Nat) (P : KParams)
    (hps : paramSet ps = some P) (S : SymCrypto) (d m r ek : Bytes) :
    pkeKeygen S P d = none ∧ pkeEncrypt S P ek m r = none :=
  ⟨pkeKeygen_none S P d, pkeEncrypt_none S P ek m r⟩

theorem C2_witness :
    paramSet 512 = some ⟨2, 3, 2, 10, 4⟩
      ∧ pkeKeygen trivSym ⟨2, 3, 2, 10, 4⟩ (List.replicate 32 0) = none
      ∧ pkeEncrypt trivSym ⟨2, 3, 2, 10, 4⟩ (List.replicate 800 0)
          (List.replicate 32 0) (List.replicate 32 0) = none :=
  ⟨rfl,
    (C2_kpke_roundtrip_impossible 512 ⟨2, 3, 2, 10, 4⟩ rfl trivSym
      (List.replicate 32 0) (List.replicate 32 0) (List.replicate 32 0)
      (List.replicate 800 0)).1,
    (C2_kpke_roundtrip_impossible 512 ⟨2, 3, 2, 10, 4⟩ rfl trivSym
      (List.replicate 32 0) (List.replicate 32 0) (List.replicate 32 0)
      (List.replicate 800 0)).2⟩

/-- Claim C3.  The claim states that on a well-formed decapsulation key and
a well-sized ciphertext, `KyberKEM.decaps` raises no error and returns `K1`
on re-encryption match and `J(z || c)` otherwise.  On this code
`decaps_internal` always raises: the re-encryption step calls
`KyberPKE.encrypt`, which raises `TypeError` at its
`KMat.uni_from_seed(self.k, rho)` call on every input. -/
theorem C3_decaps_raises (ps : Nat) (P : KParams)
    (hps : paramSet ps = some P) (S : SymCrypto) (dk c : Bytes)
    (hdk : dk.length = 768 * P.k + 96)
    (hc : c.length = 32 * (P.du * P.k + P.dv)) :
    kemDecapsInternal S P dk c = none :=
  kemDecapsInternal_none S P dk c

theorem C3_witness :
    (paramSet 512 = some ⟨2, 3, 2, 10, 4⟩
      ∧ (List.replicate 1632 (0 : Nat)).length = 768 * 2 + 96
      ∧ (List.replicate 768 (0 : Nat)).length = 32 * (10 * 2 + 4))
    ∧ kemDecapsInternal trivSym ⟨2, 3, 2, 10, 4⟩
        (List.replicate 1632 0) (List.replicate 768 0) = none :=
  ⟨⟨rfl, by decide, by decide⟩,
    C3_decaps_raises 512 ⟨2, 3, 2, 10, 4⟩ rfl trivSym _ _ (by decide) (by decide)⟩

/-- Claim C4.  For every parameter set, every decryption key of length
`384 k` and every ciphertext of length `32 (du k + dv)`, whatever the byte
contents, `KyberPKE.decrypt` raises no error and returns exactly 32
bytes. -/
theorem C4_decrypt_total (ps : Nat) (P : KParams)
    (hps : paramSet ps = some P) (dk c : Bytes)
    (hdk : dk.length = 384 * P.k)
    (hc : c.length = 32 * (P.du * P.k + P.dv)) :
    ∃ m, pkeDecrypt P dk c = some m ∧ m.length = 32 := by
  obtain ⟨h1, h2, h3⟩ := paramSet_bounds ps P hps
  exact pkeDecrypt_some P h1 h2 h3 dk c hdk hc

theorem C4_witness :
    (paramSet 512 = some ⟨2, 3, 2, 10, 4⟩
      ∧ (List.replicate 768 (0 : Nat)).length = 384 * 2
      ∧ (List.replicate 768 (0 : Nat)).length = 32 * (10 * 2 + 4))
    ∧ ∃ m, pkeDecrypt ⟨2, 3, 2, 10, 4⟩ (List.replicate 768 0)
        (List.replicate 768 0) = some m ∧ m.length = 32 :=
  ⟨⟨rfl, by decide, by decide⟩,
    C4_decrypt_total 512 ⟨2, 3, 2, 10, 4⟩ rfl _ _ (by decide) (by decide)⟩

theorem floor_int_div (a b : Int) (hb : 0 < b) : ⌊(a : ℚ) / (b : ℚ)⌋ = a / b := by
  have h1 : ((b.toNat : ℕ) : ℤ) = b := Int.toNat_of_nonneg hb.le
  rw [← h1]
  push_cast
  exact Rat.floor_intCast_div_natCast a b.toNat

/-- The exact round-half-up reference `compressExact` agrees with a pure
integer-division formula. -/
theorem compress_int_formula (q r : Int) (d : Nat) (hq : 0 < q) :
    compressExact q r d = (2 ^ (d + 1) * r + q) / (2 * q) % 2 ^ d := by
  rw [compressExact]
  congr 1
  have hq0 : (q : ℚ) ≠ 0 := by
    exact_mod_cast ne_of_gt hq
  have hxy : (1 / 2 : ℚ) + (r : ℚ) * 2 ^ d / (q : ℚ)
      = ((2 ^ (d + 1) * r + q : ℤ) : ℚ) / ((2 * q : ℤ) : ℚ) := by
    push_cast
    field_simp
    ring
  rw [hxy, floor_int_div _ _ (by positivity)]

/-- The exact round-half-up reference `decompressExact` likewise. -/
theorem decompress_int_formula (q y : Int) (d : Nat) (hq : 0 < q) :
    decompressExact q y d = (2 * y * q + 2 ^ d) / 2 ^ (d + 1) % q := by
  rw [decompressExact]
  congr 1
  have hq0 : (q : ℚ) ≠ 0 := by
    exact_mod_cast ne_of_gt hq
  have hxy : (1 / 2 : ℚ) + (y : ℚ) * (q : ℚ) / 2 ^ d
      = ((2 * y * q + 2 ^ d : ℤ) : ℚ) / ((2 ^ (d + 1) : ℤ) : ℚ) := by
    push_cast
    rw [pow_succ]
    field_simp
    ring
  rw [hxy, floor_int_div _ _ (by positivity)]

/-- The size of a reduced difference is bounded by the absolute value of any
representative in `[-q, q]`. -/
theorem MIsize_emod_le (q x : Int) (hq : 0 < q) (hx1 : -q ≤ x) (hx2 : x ≤ q) :
    MIsize q (x % q) ≤ |x| := by
  have h1 : 0 ≤ x % q := Int.emod_nonneg x (ne_of_gt hq)
  have h2 : x % q < q := Int.emod_lt_of_pos x hq
  have h3 : x % q = x ∨ x % q = x + q ∨ x % q = x - q := by
    rcases lt_or_le x 0 with hx | hx
    · right
      left
      have h4 : (x + q) % q = x % q := by simp
      rw [← h4]
      exact Int.emod_eq_of_lt (by omega) (by omega)
    · rcases lt_or_le x q with hx5 | hx5
      · left
        exact Int.emod_eq_of_lt hx hx5
      · right
        right
        have hxq : x = q := le_antisymm hx2 hx5
        rw [hxq]
        simp
  rw [MIsize, min_le_iff]
  rcases abs_cases x with ⟨ha, _⟩ | ⟨ha, _⟩ <;> rw [ha] <;> omega

/-- Round-trip accuracy of the exact round-half-up reference: the
reconstruction differs from `r` by at most `⌈q / 2^(d+1)⌉` in the size
metric. -/
theorem compress_decompress_bound (q r : Int) (d : Nat) (hq : 2 ^ d < q)
    (hr0 : 0 ≤ r) (hr1 : r < q) :
    MIsize q (modSub q (decompressExact q (compressExact q r d) d) r)
      ≤ ⌈(q : ℚ) / 2 ^ (d + 1)⌉ := by
  have hqpos : (0 : ℤ) < q := lt_trans (by positivity) hq
  rw [compress_int_formula q r d hqpos, decompress_int_formula q _ d hqpos, modSub]
  set E : ℤ := 2 ^ d with hEdef
  have hE : (0 : ℤ) < E := by positivity
  have hpow : (2 : ℤ) ^ (d + 1) = 2 * E := by
    rw [hEdef, pow_succ]
    ring
  rw [hpow]
  set c : ℤ := ⌈(q : ℚ) / 2 ^ (d + 1)⌉ with hcdef
  have hXpos : (0 : ℚ) < 2 ^ (d + 1) := by positivity
  have hcast : ((2 : ℚ) ^ (d + 1)) = ((2 ^ (d + 1) : ℤ) : ℚ) := by push_cast; ring
  have hc1 : (q : ℤ) ≤ 2 * E * c := by
    have h := Int.le_ceil ((q : ℚ) / 2 ^ (d + 1))
    rw [← hcdef, div_le_iff₀ hXpos] at h
    rw [hcast, ← Int.cast_mul] at h
    have h4 : (q : ℤ) ≤ c * 2 ^ (d + 1) := by exact_mod_cast h
    calc (q : ℤ) ≤ c * 2 ^ (d + 1) := h4
      _ = 2 * E * c := by rw [hpow]; ring
  have hc2 : 2 * E * c < q + 2 * E := by
    have h := Int.ceil_lt_add_one ((q : ℚ) / 2 ^ (d + 1))
    rw [← hcdef] at h
    have h2 : (c : ℚ) * 2 ^ (d + 1) < ((q : ℚ) / 2 ^ (d + 1) + 1) * 2 ^ (d + 1) :=
      mul_lt_mul_of_pos_right h hXpos
    rw [add_mul, div_mul_cancel₀ _ (ne_of_gt hXpos), one_mul, hcast,
      ← Int.cast_mul, ← Int.cast_add] at h2
    have h4 : c * 2 ^ (d + 1) < q + 2 ^ (d + 1) := by exact_mod_cast h2
    calc 2 * E * c = c * 2 ^ (d + 1) := by rw [hpow]; ring
      _ < q + 2 ^ (d + 1) := h4
      _ = q + 2 * E := by rw [hpow]
  set y0 : ℤ := (2 * E * r + q) / (2 * q) with hy0def
  set s : ℤ := (2 * E * r + q) % (2 * q) with hsdef
  have hA : 2 * q * y0 + s = 2 * E * r + q := Int.ediv_add_emod _ _
  have hs0 : 0 ≤ s := Int.emod_nonneg _ (by omega)
  have hs1 : s < 2 * q := Int.emod_lt_of_pos _ (by omega)
  have hy0n : 0 ≤ y0 := Int.ediv_nonneg (by nlinarith) (by omega)
  have hy0E : y0 ≤ E := by
    have hmul : 2 * E * r ≤ 2 * E * (q - 1) :=
      mul_le_mul_of_nonneg_left (by omega) (by positivity)
    have hlt : y0 < E + 1 := by
      rw [hy0def, Int.ediv_lt_iff_lt_mul (by omega)]
      nlinarith
    omega
  rcases eq_or_lt_of_le hy0E with hcase | hcase
  · -- y0 = E: the compressed value wraps to 0 and decompresses to 0
    rw [hcase, Int.emod_self]
    have hnum : 2 * (0 : ℤ) * q + E = E := by ring
    rw [hnum, Int.ediv_eq_zero_of_lt hE.le (by omega), Int.zero_emod]
    have heq : (0 - r) % q = (q - r) % q := by
      have h5 := Int.add_mul_emod_self_left (0 - r) q 1
      have h6 : 0 - r + q * 1 = q - r := by ring
      rw [h6] at h5
      rw [h5]
    rw [heq]
    have hAE : 2 * q * E + s = 2 * E * r + q := by
      have h9 := hA
      rw [hcase] at h9
      exact h9
    have h7 : 2 * E * (q - r) ≤ 2 * E * c := by nlinarith
    have h8 : q - r ≤ c := le_of_mul_le_mul_left h7 (by positivity)
    calc MIsize q ((q - r) % q) ≤ |q - r| :=
          MIsize_emod_le q _ hqpos (by omega) (by omega)
      _ = q - r := abs_of_nonneg (by omega)
      _ ≤ c := h8
  · -- y0 < E: no wrap-around
    rw [Int.emod_eq_of_lt hy0n hcase]
    have hnum : 2 * y0 * q + E = 2 * q * y0 + E := by ring
    rw [hnum]
    set B : ℤ := 2 * q * y0 + E with hBdef
    set r1 : ℤ := B / (2 * E) with hr1def
    set t : ℤ := B % (2 * E) with htdef
    have hB : 2 * E * r1 + t = B := Int.ediv_add_emod _ _
    have ht0 : 0 ≤ t := Int.emod_nonneg _ (by omega)
    have ht1 : t < 2 * E := Int.emod_lt_of_pos _ (by omega)
    have hr1n : 0 ≤ r1 := Int.ediv_nonneg (by nlinarith) (by omega)
    have hr1q : r1 < q := by
      rw [hr1def, Int.ediv_lt_iff_lt_mul (by omega)]
      have hmul : 2 * q * y0 ≤ 2 * q * (E - 1) :=
        mul_le_mul_of_nonneg_left (by omega) (by omega)
      nlinarith
    rw [Int.emod_eq_of_lt hr1n hr1q]
    have hkey : 2 * E * r1 - 2 * E * r = q + E - s - t := by linarith
    have hXle : r1 - r ≤ c := by
      by_contra hcon
      push_neg at hcon
      have h1 : 2 * E * (c + 1) ≤ 2 * E * (r1 - r) :=
        mul_le_mul_of_nonneg_left (by omega) (by positivity)
      have h2 : 2 * E * (r1 - r) = 2 * E * r1 - 2 * E * r := by ring
      have h3 : 2 * E * (c + 1) = 2 * E * c + 2 * E := by ring
      linarith
    have hXge : -c ≤ r1 - r := by
      by_contra hcon
      push_neg at hcon
      have h1 : 2 * E * (r1 - r) ≤ 2 * E * (-c - 1) :=
        mul_le_mul_of_nonneg_left (by omega) (by positivity)
      have h2 : 2 * E * (r1 - r) = 2 * E * r1 - 2 * E * r := by ring
      have h3 : 2 * E * (-c - 1) = -(2 * E * c) - 2 * E := by ring
      linarith
    calc MIsize q ((r1 - r) % q) ≤ |r1 - r| :=
          MIsize_emod_le q _ hqpos (by omega) (by omega)
      _ ≤ c := abs_le.mpr ⟨by omega, by omega⟩

/-- Claim C5, counterexample to the claim as stated.  The claim asserts
for every modulus that the code computes the exact round-half-up values;
but `KModInt.compress`/`KModInt.decompress` perform binary64 arithmetic,
which diverges inside the claim's domain: at `q = 2^41 - 1`, `d = 40`,
`r = q - 1` (with `2^d < q`, `0 ≤ r < q`) the code returns 0 while exact
round-half-up gives `2^40 - 1`, and at `q = 2^41 + 1`, `d = 40`,
`y = 2^39 - 1` the code returns `2 y + 1` while exact round-half-up gives
`2 y`. -/
theorem C5_counterexample :
    KModInt.compress (2 ^ 41 - 1) (2 ^ 41 - 2) 40 = 0
    ∧ compressExact (2 ^ 41 - 1) (2 ^ 41 - 2) 40 = 2 ^ 40 - 1
    ∧ KModInt.compress (2 ^ 41 - 1) (2 ^ 41 - 2) 40
        ≠ compressExact (2 ^ 41 - 1) (2 ^ 41 - 2) 40
    ∧ KModInt.decompress (2 ^ 41 + 1) (2 ^ 39 - 1) 40 = 2 ^ 40 - 1
    ∧ decompressExact (2 ^ 41 + 1) (2 ^ 39 - 1) 40 = 2 ^ 40 - 2
    ∧ KModInt.decompress (2 ^ 41 + 1) (2 ^ 39 - 1) 40
        ≠ decompressExact (2 ^ 41 + 1) (2 ^ 39 - 1) 40 := by
  have hc : KModInt.compress (2 ^ 41 - 1) (2 ^ 41 - 2) 40 = 0 := by decide
  have hce : compressExact (2 ^ 41 - 1) (2 ^ 41 - 2) 40 = 2 ^ 40 - 1 := by
    rw [compress_int_formula (2 ^ 41 - 1) (2 ^ 41 - 2) 40 (by decide)]
    decide
  have hd : KModInt.decompress (2 ^ 41 + 1) (2 ^ 39 - 1) 40 = 2 ^ 40 - 1 := by decide
  have hde : decompressExact (2 ^ 41 + 1) (2 ^ 39 - 1) 40 = 2 ^ 40 - 2 := by
    rw [decompress_int_formula (2 ^ 41 + 1) (2 ^ 39 - 1) 40 (by decide)]
    decide
  refine ⟨hc, hce, ?_, hd, hde, ?_⟩
  · rw [hc, hce]
    decide
  · rw [hd, hde]
    decide

/-- Claim C5, amended.  The exact round-half-up reference functions
satisfy the claimed integer-division formulas and the `⌈q / 2^(d+1)⌉`
round-trip bound in the size metric `min(x, q - x)` for every modulus,
and at the claim's concrete instances `q = 19`, `d = 2` the binary64 code
agrees with the reference: compress(3) = 1, decompress(1) = 5,
compress(12) = 3, decompress(3) = 14. -/
theorem C5_compress_decompress (q r y : Int) (d : Nat) (hq : 2 ^ d < q)
    (hr0 : 0 ≤ r) (hr1 : r < q) :
    compressExact q r d = (2 ^ (d + 1) * r + q) / (2 * q) % 2 ^ d
    ∧ decompressExact q y d = (2 * y * q + 2 ^ d) / 2 ^ (d + 1) % q
    ∧ MIsize q (modSub q (decompressExact q (compressExact q r d) d) r)
        ≤ ⌈(q : ℚ) / 2 ^ (d + 1)⌉
    ∧ KModInt.compress 19 3 2 = 1
    ∧ KModInt.compress 19 3 2 = compressExact 19 3 2
    ∧ KModInt.decompress 19 1 2 = 5
    ∧ KModInt.decompress 19 1 2 = decompressExact 19 1 2
    ∧ KModInt.compress 19 12 2 = 3
    ∧ KModInt.compress 19 12 2 = compressExact 19 12 2
    ∧ KModInt.decompress 19 3 2 = 14
    ∧ KModInt.decompress 19 3 2 = decompressExact 19 3 2 := by
  have hqpos : (0 : ℤ) < q := lt_trans (by positivity) hq
  have h19 : (0 : ℤ) < 19 := by decide
  refine ⟨compress_int_formula q r d hqpos, decompress_int_formula q y d hqpos,
    compress_decompress_bound q r d hq hr0 hr1, by decide, ?_, by decide, ?_,
    by decide, ?_, by decide, ?_⟩
  · rw [compress_int_formula 19 3 2 h19]
    decide
  · rw [decompress_int_formula 19 1 2 h19]
    decide
  · rw [compress_int_formula 19 12 2 h19]
    decide
  · rw [decompress_int_formula 19 3 2 h19]
    decide

theorem C5_witness :
    ((2 : ℤ) ^ 2 < 19 ∧ (0 : ℤ) ≤ 3 ∧ (3 : ℤ) < 19)
    ∧ (compressExact 19 3 2 = (2 ^ (2 + 1) * 3 + 19) / (2 * 19) % 2 ^ 2
      ∧ decompressExact 19 1 2 = (2 * 1 * 19 + 2 ^ 2) / 2 ^ (2 + 1) % 19
      ∧ MIsize 19 (modSub 19 (decompressExact 19 (compressExact 19 3 2) 2) 3)
          ≤ ⌈(19 : ℚ) / 2 ^ (2 + 1)⌉
      ∧ KModInt.compress 19 3 2 = 1
      ∧ KModInt.compress 19 3 2 = compressExact 19 3 2
      ∧ KModInt.decompress 19 1 2 = 5
      ∧ KModInt.decompress 19 1 2 = decompressExact 19 1 2
      ∧ KModInt.compress 19 12 2 = 3
      ∧ KModInt.compress 19 12 2 = compressExact 19 12 2
      ∧ KModInt.decompress 19 3 2 = 14
      ∧ KModInt.decompress 19 3 2 = decompressExact 19 3 2) :=
  ⟨⟨by decide, by decide, by decide⟩,
    C5_compress_decompress 19 3 1 2 (by decide) (by decide) (by decide)⟩

theorem emod_step (q c p s : Int) : ((c + p % q) % q + s) % q = (c + p + s) % q := by
  rw [Int.emod_add_emod]
  rw [show c + p % q + s = p % q + (c + s) by ring]
  rw [Int.emod_add_emod]
  rw [show p + (c + s) = c + p + s by ring]

theorem emod_step_sub (q c p s : Int) :
    ((c - p % q) % q + s) % q = (c - p + s) % q := by
  rw [Int.emod_add_emod]
  rw [show c - p % q + s = (c + s) - p % q by ring]
  rw [Int.sub_emod (c + s) (p % q) q, Int.emod_emod_of_dvd p dvd_rfl,
    ← Int.sub_emod]
  rw [show c + s - p = c - p + s by ring]

theorem getD_set_self (c : ZPoly) (t : Nat) (v : Int) (h : t < c.length) :
    (c.set t v).getD t 0 = v := by
  rw [List.getD_eq_getElem?_getD, List.getElem?_set_eq_of_lt v h]
  rfl

theorem getD_set_ne (c : ZPoly) (t u : Nat) (v : Int) (h : t ≠ u) :
    (c.set t v).getD u 0 = c.getD u 0 := by
  rw [List.getD_eq_getElem?_getD, List.getElem?_set_ne h,
    ← List.getD_eq_getElem?_getD]

theorem getD_replicate_zero (n u : Nat) : (List.replicate n (0 : Int)).getD u 0 = 0 := by
  rw [List.getD_eq_getElem?_getD, List.getElem?_replicate]
  split <;> rfl

/-- Where one `mulStep` writes, and what it leaves unchanged. -/
theorem mulStep_getD (q : Int) (n i j : Nat) (p : Int) (c : ZPoly)
    (hc : c.length = n) (hi : i < n) (hj : j < n) (u : Nat) :
    (mulStep q n i j p c).getD u 0
      = if n ≤ i + j ∧ i + j - n = u then modSub q (c.getD u 0) p
        else if i + j < n ∧ i + j = u then modAdd q (c.getD u 0) p
        else c.getD u 0 := by
  rw [mulStep]
  by_cases h1 : n ≤ i + j
  · rw [if_pos h1]
    by_cases h2 : i + j - n = u
    · subst h2
      rw [getD_set_self c _ _ (by omega), if_pos ⟨h1, rfl⟩]
    · rw [getD_set_ne c _ u _ h2, if_neg (by tauto), if_neg (by omega)]
  · rw [if_neg h1]
    by_cases h2 : i + j = u
    · subst h2
      rw [getD_set_self c _ _ (by omega), if_neg (by omega),
        if_pos ⟨by omega, rfl⟩]
    · rw [getD_set_ne c _ u _ h2, if_neg (by tauto), if_neg (by tauto)]

theorem mulStep_red (q : Int) (n i j : Nat) (ai bj : Int) (c : ZPoly)
    (hc : c.length = n) (hi : i < n) (hj : j < n)
    (hred : ∀ u : Nat, c.getD u 0 % q = c.getD u 0) (u : Nat) :
    (mulStep q n i j (modMul q ai bj) c).getD u 0 % q
      = (mulStep q n i j (modMul q ai bj) c).getD u 0 := by
  rw [mulStep_getD q n i j _ c hc hi hj u]
  split
  · rw [modSub, Int.emod_emod_of_dvd _ dvd_rfl]
  · split
    · rw [modAdd, Int.emod_emod_of_dvd _ dvd_rfl]
    · exact hred u

/-- Invariant of the multiplication fold: each coefficient accumulates the
signed partial products of the processed index pairs, reduced modulo `q`. -/
theorem mulFold_getD (q : Int) (n : Nat) (a b : ZPoly) :
    ∀ (L : List (Nat × Nat)) (c : ZPoly), c.length = n →
      (∀ ij ∈ L, ij.1 < n ∧ ij.2 < n) →
      (∀ u : Nat, c.getD u 0 % q = c.getD u 0) →
      ∀ k, k < n →
      (L.foldl (fun c2 ij =>
          mulStep q n ij.1 ij.2 (modMul q (a.getD ij.1 0) (b.getD ij.2 0)) c2) c).getD k 0
        = (c.getD k 0 + (L.map (fun ij =>
            if ij.1 + ij.2 = k then a.getD ij.1 0 * b.getD ij.2 0
            else if ij.1 + ij.2 = k + n then -(a.getD ij.1 0 * b.getD ij.2 0)
            else 0)).sum) % q := by
  intro L
  induction L with
  | nil =>
    intro c hc hL hred k hk
    simp only [List.foldl_nil, List.map_nil, List.sum_nil, add_zero]
    exact (hred k).symm
  | cons ij L2 ih =>
    intro c hc hL hred k hk
    obtain ⟨i, j⟩ := ij
    have hij : i < n ∧ j < n := hL (i, j) (by simp)
    rw [List.foldl_cons]
    have hstep := ih (mulStep q n i j (modMul q (a.getD i 0) (b.getD j 0)) c)
      (by rw [mulStep_length, hc])
      (fun x hx => hL x (by simp [hx]))
      (mulStep_red q n i j _ _ c hc hij.1 hij.2 hred) k hk
    rw [hstep, mulStep_getD q n i j _ c hc hij.1 hij.2 k]
    rw [List.map_cons, List.sum_cons]
    by_cases h1 : n ≤ i + j
    · by_cases h2 : i + j - n = k
      · rw [if_pos ⟨h1, h2⟩]
        have hhead : (if i + j = k then a.getD i 0 * b.getD j 0
            else if i + j = k + n then -(a.getD i 0 * b.getD j 0) else 0)
            = -(a.getD i 0 * b.getD j 0) := by
          rw [if_neg (by omega), if_pos (by omega)]
        rw [hhead, modSub, modMul, emod_step_sub]
        congr 1
        ring
      · rw [if_neg (by tauto), if_neg (by omega)]
        have hhead : (if i + j = k then a.getD i 0 * b.getD j 0
            else if i + j = k + n then -(a.getD i 0 * b.getD j 0) else 0)
            = 0 := by
          show (if i + j = k then a.getD i 0 * b.getD j 0
            else if i + j = k + n then -(a.getD i 0 * b.getD j 0) else 0) = 0
          rw [if_neg (by omega), if_neg (by omega)]
        rw [hhead]
        congr 1
        ring
    · by_cases h2 : i + j = k
      · rw [if_neg (by omega), if_pos ⟨by omega, h2⟩]
        have hhead : (if i + j = k then a.getD i 0 * b.getD j 0
            else if i + j = k + n then -(a.getD i 0 * b.getD j 0) else 0)
            = a.getD i 0 * b.getD j 0 := by
          rw [if_pos h2]
        rw [hhead, modAdd, modMul, emod_step]
        congr 1
        ring
      · rw [if_neg (by omega), if_neg (by tauto)]
        have hhead : (if i + j = k then a.getD i 0 * b.getD j 0
            else if i + j = k + n then -(a.getD i 0 * b.getD j 0) else 0)
            = 0 := by
          rw [if_neg h2, if_neg (by omega)]
        rw [hhead]
        congr 1
        ring

theorem foldl_flatMap {α β γ : Type} (g : α → List β) (f : γ → β → γ) :
    ∀ (l : List α) (init : γ),
      (l.flatMap g).foldl f init = l.foldl (fun acc x => (g x).foldl f acc) init := by
  intro l
  induction l with
  | nil => intro init; rfl
  | cons x t ih =>
    intro init
    rw [List.flatMap_cons, List.foldl_append, List.foldl_cons, ih]

theorem list_range_sum (f : Nat → Int) (n : Nat) :
    ((List.range n).map f).sum = ∑ i ∈ Finset.range n, f i := by
  induction n with
  | zero => simp
  | succ n ih =>
    rw [List.range_succ, List.map_append, List.sum_append, Finset.sum_range_succ, ih]
    simp

theorem map_sum_flatMap {α β : Type} (f : β → Int) (g : α → List β) (l : List α) :
    ((l.flatMap g).map f).sum = (l.map (fun i => ((g i).map f).sum)).sum := by
  induction l with
  | nil => simp
  | cons x t ih => simp [List.flatMap_cons, ih]

/-- The fold of `ModPol.__mul__` over the row-major list of index pairs. -/
theorem mulRaw_pairs (q : Int) (n : Nat) (a b : ZPoly)
    (ha : a.length = n) (hb : b.length = n) :
    mulRaw q n a b
      = ((List.range n).flatMap (fun i => (List.range n).map (fun j => (i, j)))).foldl
          (fun c2 ij => mulStep q n ij.1 ij.2
            (modMul q (a.getD ij.1 0) (b.getD ij.2 0)) c2)
          (List.replicate n 0) := by
  rw [mulRaw, ha, hb, foldl_flatMap]
  congr 1
  funext acc i
  rw [List.foldl_map]

/-- Coefficient `k` of the negacyclic product, as the claim states it. -/
theorem mulRaw_coeff (q : Int) (n : Nat) (a b : ZPoly)
    (ha : a.length = n) (hb : b.length = n) (k : Nat) (hk : k < n) :
    (mulRaw q n a b).getD k 0
      = ((∑ i ∈ Finset.range n, ∑ j ∈ Finset.range n,
            if i + j = k then a.getD i 0 * b.getD j 0 else 0)
        - ∑ i ∈ Finset.range n, ∑ j ∈ Finset.range n,
            if i + j = k + n then a.getD i 0 * b.getD j 0 else 0) % q := by
  rw [mulRaw_pairs q n a b ha hb]
  have hmem : ∀ ij ∈ (List.range n).flatMap (fun i => (List.range n).map (fun j => (i, j))),
      ij.1 < n ∧ ij.2 < n := by
    intro ij hij
    simp only [List.mem_flatMap, List.mem_map, List.mem_range] at hij
    obtain ⟨i, hi, j, hj, rfl⟩ := hij
    exact ⟨hi, hj⟩
  rw [mulFold_getD q n a b _ _ (List.length_replicate n 0) hmem
    (fun u => by rw [getD_replicate_zero]; rfl) k hk]
  rw [getD_replicate_zero, zero_add]
  congr 1
  rw [map_sum_flatMap]
  have hsplit : ∀ i : Nat, (((List.range n).map (fun j => (i, j))).map (fun ij =>
        if ij.1 + ij.2 = k then a.getD ij.1 0 * b.getD ij.2 0
        else if ij.1 + ij.2 = k + n then -(a.getD ij.1 0 * b.getD ij.2 0)
        else 0)).sum
      = (∑ j ∈ Finset.range n, if i + j = k then a.getD i 0 * b.getD j 0 else 0)
        - ∑ j ∈ Finset.range n, if i + j = k + n then a.getD i 0 * b.getD j 0 else 0 := by
    intro i
    rw [List.map_map]
    have hfun : ((fun ij : Nat × Nat =>
          if ij.1 + ij.2 = k then a.getD ij.1 0 * b.getD ij.2 0
          else if ij.1 + ij.2 = k + n then -(a.getD ij.1 0 * b.getD ij.2 0)
          else 0) ∘ fun j => (i, j))
        = fun j => (if i + j = k then a.getD i 0 * b.getD j 0 else 0)
            - (if i + j = k + n then a.getD i 0 * b.getD j 0 else 0) := by
      funext j
      simp only [Function.comp_apply]
      have hkn : ¬ (i + j = k ∧ i + j = k + n) := by omega
      by_cases ha1 : i + j = k
      · rw [if_pos ha1, if_pos ha1, if_neg (by omega)]
        ring
      · rw [if_neg ha1, if_neg ha1]
        by_cases hb1 : i + j = k + n
        · rw [if_pos hb1, if_pos hb1]
          ring
        · rw [if_neg hb1, if_neg hb1]
          ring
    rw [hfun, list_range_sum, Finset.sum_sub_distrib]
  have hout : ((List.range n).map (fun i =>
        (((List.range n).map (fun j => (i, j))).map (fun ij =>
          if ij.1 + ij.2 = k then a.getD ij.1 0 * b.getD ij.2 0
          else if ij.1 + ij.2 = k + n then -(a.getD ij.1 0 * b.getD ij.2 0)
          else 0)).sum)).sum
      = ((List.range n).map (fun i =>
          (∑ j ∈ Finset.range n, if i + j = k then a.getD i 0 * b.getD j 0 else 0)
          - ∑ j ∈ Finset.range n, if i + j = k + n then a.getD i 0 * b.getD j 0 else 0)).sum := by
    have hfun2 : (fun i => (((List.range n).map (fun j => (i, j))).map (fun ij =>
          if ij.1 + ij.2 = k then a.getD ij.1 0 * b.getD ij.2 0
          else if ij.1 + ij.2 = k + n then -(a.getD ij.1 0 * b.getD ij.2 0)
          else 0)).sum)
        = fun i =>
          (∑ j ∈ Finset.range n, if i + j = k then a.getD i 0 * b.getD j 0 else 0)
          - ∑ j ∈ Finset.range n, if i + j = k + n then a.getD i 0 * b.getD j 0 else 0 :=
      funext hsplit
    rw [hfun2]
  rw [hout, list_range_sum, Finset.sum_sub_distrib]

/-- Claim C6.  `ModPol.__mul__` implements negacyclic convolution: for
polynomials of shape `(q, n)`, coefficient `k` of `a * b` is the sum of
`a_i b_j` over `i + j = k` minus the sum over `i + j = k + n`, in `Z_q`;
and the slide-26 example over `q = 41`, `n = 4` evaluates as stated. -/
theorem C6_negacyclic_mul (q : Int) (n : Nat) (a b : ZPoly)
    (ha : a.length = n) (hb : b.length = n) (k : Nat) (hk : k < n) :
    polMul q n a b = some (mulRaw q n a b)
    ∧ (mulRaw q n a b).getD k 0
        = ((∑ i ∈ Finset.range n, ∑ j ∈ Finset.range n,
              if i + j = k then a.getD i 0 * b.getD j 0 else 0)
          - ∑ i ∈ Finset.range n, ∑ j ∈ Finset.range n,
              if i + j = k + n then a.getD i 0 * b.getD j 0 else 0) % q
    ∧ polMul 41 4 [32, 0, 17, 22] [11, 7, 19, 1] = some [39, 35, 35, 24] :=
  ⟨polMul_some q n (by omega) a b, mulRaw_coeff q n a b ha hb k hk, by decide⟩

theorem C6_witness :
    (([32, 0, 17, 22] : ZPoly).length = 4 ∧ ([11, 7, 19, 1] : ZPoly).length = 4
      ∧ 0 < 4)
    ∧ (polMul 41 4 [32, 0, 17, 22] [11, 7, 19, 1]
        = some (mulRaw 41 4 [32, 0, 17, 22] [11, 7, 19, 1])
      ∧ (mulRaw 41 4 [32, 0, 17, 22] [11, 7, 19, 1]).getD 0 0
          = ((∑ i ∈ Finset.range 4, ∑ j ∈ Finset.range 4,
                if i + j = 0 then ([32, 0, 17, 22] : ZPoly).getD i 0
                  * ([11, 7, 19, 1] : ZPoly).getD j 0 else 0)
            - ∑ i ∈ Finset.range 4, ∑ j ∈ Finset.range 4,
                if i + j = 0 + 4 then ([32, 0, 17, 22] : ZPoly).getD i 0
                  * ([11, 7, 19, 1] : ZPoly).getD j 0 else 0) % 41
      ∧ polMul 41 4 [32, 0, 17, 22] [11, 7, 19, 1] = some [39, 35, 35, 24]) :=
  ⟨⟨by decide, by decide, by decide⟩,
    C6_negacyclic_mul 41 4 [32, 0, 17, 22] [11, 7, 19, 1] rfl rfl 0 (by decide)⟩

/-- Claim C7.  Packing a length-256 list of `d`-bit integers into bytes and
unpacking recovers the list exactly, for `d` in `1..12`. -/
theorem C7_byte_roundtrip (d : Nat) (F : List Nat) (hd1 : 1 ≤ d) (hd2 : d ≤ 12)
    (hlen : F.length = 256) (hF : ∀ x ∈ F, x < 2 ^ d) :
    ∃ B, bytes_from_ints d F = some B ∧ ints_from_bytes d B = F := by
  obtain ⟨hsome, _⟩ := bytes_from_ints_some d F
  refine ⟨_, hsome, ?_⟩
  rw [ints_from_bytes, bits_from_bytes]
  rw [bits_from_ints_of_ints_from_bits 8 (bits_from_ints d F) (by omega)
    (bits_from_ints_le_one d F)
    (by rw [bits_from_ints_length, hlen]; omega)]
  exact ints_from_bits_of_bits_from_ints d F hd1 hF

theorem C7_witness :
    (1 ≤ 12 ∧ 12 ≤ 12 ∧ (List.replicate 256 (0 : Nat)).length = 256
      ∧ ∀ x ∈ List.replicate 256 (0 : Nat), x < 2 ^ 12)
    ∧ ∃ B, bytes_from_ints 12 (List.replicate 256 0) = some B
        ∧ ints_from_bytes 12 B = List.replicate 256 0 :=
  ⟨⟨by decide, by decide, by decide, by decide⟩,
    C7_byte_roundtrip 12 (List.replicate 256 0) (by decide) (by decide)
      (by decide) (by decide)⟩

/-- Claim C9.  On a bit string whose length is not a multiple of `d`,
`ints_from_bits` raises no error: it returns the `len / d` integers built
from the complete groups and silently discards the trailing bits. -/
theorem C9_ints_from_bits_truncates (d : Nat) (bits : List Nat) (hd : 1 ≤ d)
    (hb : ∀ b ∈ bits, b ≤ 1) (hnd : ¬ d ∣ bits.length) :
    (ints_from_bits d bits).length = bits.length / d
      ∧ ints_from_bits d bits
          = ints_from_bits d (bits.take (d * (bits.length / d))) :=
  ints_from_bits_spec d bits hd

theorem C9_witness :
    (1 ≤ 3 ∧ (∀ b ∈ [1, 0, 1, 1], b ≤ 1) ∧ ¬ 3 ∣ ([1, 0, 1, 1] : List Nat).length)
    ∧ ((ints_from_bits 3 [1, 0, 1, 1]).length = ([1, 0, 1, 1] : List Nat).length / 3
      ∧ ints_from_bits 3 [1, 0, 1, 1]
          = ints_from_bits 3 (([1, 0, 1, 1] : List Nat).take
              (3 * (([1, 0, 1, 1] : List Nat).length / 3)))) :=
  ⟨⟨by decide, by decide, by decide⟩,
    C9_ints_from_bits_truncates 3 [1, 0, 1, 1] (by decide) (by decide) (by decide)⟩

theorem getD_map_int (f : Nat → Int) (l : List Nat) (i : Nat) (h : i < l.length) :
    (l.map f).getD i 0 = f (l.getD i 0) := by
  rw [List.getD_eq_getElem?_getD, List.getElem?_map, List.getElem?_eq_getElem h,
    List.getD_eq_getElem?_getD, List.getElem?_eq_getElem h]
  rfl

/-- Claim C10.  `KModPol.from_bytes` succeeds on every 384-byte string,
its `i`-th coefficient is the `i`-th little-endian 12-bit field reduced
modulo 3329 (fields in `[3329, 4096)` are reduced, not rejected), and two
distinct byte strings can decode to the same polynomial. -/
theorem C10_from_bytes_total (B : Bytes) (hB : B.length = 384) :
    ∃ p, KModPol.from_bytes B = some p ∧ p.length = 256
      ∧ (∀ i, i < 256 →
          p.getD i 0
            = Int.ofNat (valLE (((bits_from_bytes B).drop (12 * i)).take 12)) % 3329)
      ∧ KModPol.from_bytes (List.replicate 384 0)
          = KModPol.from_bytes ([1, 13] ++ List.replicate 382 0)
      ∧ (List.replicate 384 (0 : Nat)) ≠ [1, 13] ++ List.replicate 382 0 := by
  obtain ⟨p, hp, hplen⟩ := kmodpol_from_bytes_some B hB
  have hbits : (bits_from_bytes B).length = 3072 := by
    rw [bits_from_bytes, bits_from_ints_length, hB]
  have hilen : (ints_from_bytes 12 B).length = 256 := by
    rw [ints_from_bytes_length 12 B (by omega), hB]
  have heval : KModPol.from_bytes B
      = some ((ints_from_bytes 12 B).map (fun c => Int.ofNat c % 3329)) := by
    rw [KModPol.from_bytes, mkPol, if_pos ⟨by rw [List.length_map, hilen], by omega⟩]
  have hpval : p = (ints_from_bytes 12 B).map (fun c => Int.ofNat c % 3329) := by
    rw [heval] at hp
    exact (Option.some.inj hp).symm
  refine ⟨p, hp, hplen, ?_, by decide, by decide⟩
  intro i hi
  rw [hpval, getD_map_int _ _ i (by omega)]
  rw [ints_from_bytes, ints_from_bits_getD 12 _ i (by omega) (by omega)]

theorem C10_witness :
    (List.replicate 384 (0 : Nat)).length = 384
    ∧ ∃ p, KModPol.from_bytes (List.replicate 384 0) = some p ∧ p.length = 256
      ∧ (∀ i, i < 256 →
          p.getD i 0
            = Int.ofNat (valLE (((bits_from_bytes (List.replicate 384 0)).drop
                (12 * i)).take 12)) % 3329)
      ∧ KModPol.from_bytes (List.replicate 384 0)
          = KModPol.from_bytes ([1, 13] ++ List.replicate 382 0)
      ∧ (List.replicate 384 (0 : Nat)) ≠ [1, 13] ++ List.replicate 382 0 :=
  ⟨by decide, C10_from_bytes_total (List.replicate 384 0) (by decide)⟩

/-- A run of successive `PRF.next` calls from counter `b` succeeds when it
stays within the 256 available counter values; call `i` uses counter
`b + i`. -/
theorem PRF_run_some (S : SymCrypto) (seed : Bytes) :
    ∀ (etas : List Nat) (b : Nat), b + etas.length ≤ 256 →
      ∃ outs st1, PRF.run S ⟨seed, b⟩ etas = some (outs, st1)
        ∧ st1.s = seed ∧ st1.b = b + etas.length ∧ outs.length = etas.length
        ∧ ∀ i, i < etas.length →
            outs.getD i [] = S.shake256 (seed ++ [b + i]) (64 * etas.getD i 0) := by
  intro etas
  induction etas with
  | nil =>
    intro b hb
    exact ⟨[], ⟨seed, b⟩, rfl, rfl, by simp, rfl, by simp⟩
  | cons eta rest ih =>
    intro b hb
    simp only [List.length_cons] at hb
    obtain ⟨outs, st1, hrun, hs, hb1, hlen, hout⟩ := ih (b + 1) (by omega)
    refine ⟨S.shake256 (seed ++ [b]) (64 * eta) :: outs, st1, ?_, hs, ?_, ?_, ?_⟩
    · rw [PRF.run, PRF.next, if_pos (by omega : b ≤ 255)]
      simp only [Option.bind_eq_bind, Option.some_bind]
      rw [hrun]
      rfl
    · rw [hb1]
      simp only [List.length_cons]
      omega
    · simp [hlen]
    · intro i hi
      match i with
      | 0 => simp
      | i + 1 =>
        simp only [List.getD_cons_succ]
        rw [hout i (by simp at hi; omega)]
        have harg : b + 1 + i = b + (i + 1) := by omega
        rw [harg]

/-- A run of successive `PRF.next` calls fails as soon as it would need a
counter beyond 255. -/
theorem PRF_run_none (S : SymCrypto) (seed : Bytes) :
    ∀ (etas : List Nat) (b : Nat), 1 ≤ etas.length → 256 < b + etas.length →
      PRF.run S ⟨seed, b⟩ etas = none := by
  intro etas
  induction etas with
  | nil => intro b h1 h2; simp at h1
  | cons eta rest ih =>
    intro b h1 h2
    simp only [List.length_cons] at h2
    by_cases hb : b ≤ 255
    · have hrest : PRF.run S ⟨seed, b + 1⟩ rest = none := by
        apply ih (b + 1) (by omega) (by omega)
      rw [PRF.run, PRF.next, if_pos hb]
      simp only [Option.bind_eq_bind, Option.some_bind]
      rw [hrest]
      rfl
    · rw [PRF.run, PRF.next, if_neg hb]
      rfl

/-- Claim C8.  A PRF starts with counter 0; a call of `next(eta)` with
counter `b ≤ 255` returns SHAKE256 of `seed || byte(b)` truncated to
`64 eta` bytes and increments the counter by exactly one, while a call with
`b > 255` raises; hence a sequence of up to 256 calls succeeds, the `i`-th
call (from 0) using counter `i`, and any longer sequence raises. -/
theorem C8_prf (S : SymCrypto) (seed : Bytes) (etas : List Nat) :
    (PRF.init seed).b = 0
    ∧ (∀ (st : PRFState) (eta : Nat), st.b ≤ 255 →
        PRF.next S st eta
          = some (S.shake256 (st.s ++ [st.b]) (64 * eta), ⟨st.s, st.b + 1⟩))
    ∧ (∀ (st : PRFState) (eta : Nat), 255 < st.b → PRF.next S st eta = none)
    ∧ (etas.length ≤ 256 →
        ∃ outs st1, PRF.run S (PRF.init seed) etas = some (outs, st1)
          ∧ st1.s = seed ∧ st1.b = etas.length ∧ outs.length = etas.length
          ∧ ∀ i, i < etas.length →
              outs.getD i [] = S.shake256 (seed ++ [i]) (64 * etas.getD i 0))
    ∧ (256 < etas.length → PRF.run S (PRF.init seed) etas = none) := by
  refine ⟨rfl, ?_, ?_, ?_, ?_⟩
  · intro st eta hst
    rw [PRF.next, if_pos hst]
  · intro st eta hst
    rw [PRF.next, if_neg (by omega)]
  · intro hle
    obtain ⟨outs, st1, hrun, hs, hb, hlen, hout⟩ :=
      PRF_run_some S seed etas 0 (by omega)
    exact ⟨outs, st1, hrun, hs, by omega, hlen, fun i hi => by
      have h := hout i hi
      simpa using h⟩
  · intro hgt
    exact PRF_run_none S seed etas 0 (by omega) (by omega)

theorem C8_witness :
    (⟨[], 0⟩ : PRFState).b ≤ 255
    ∧ PRF.next trivSym ⟨[], 0⟩ 2
        = some (trivSym.shake256 (([] : Bytes) ++ [0]) (64 * 2), ⟨[], 1⟩) :=
  ⟨by decide, (C8_prf trivSym [] []).2.1 ⟨[], 0⟩ 2 (by decide)⟩
